import Mathlib

/-!
# orol2md: aggregation of highlight rows into per-book Markdown notes

A shallow embedding of `src/main.go` (package `main` of acidghost/orol2md) and the
properties of its aggregation loop, renderer, format adapter and confirmation prompt.

Modelling conventions

* A Go `string` is a Lean `String`. The program only inspects ASCII characters
  (the newline, the hash sign, the first byte of an answer), and byte-wise comparison of
  UTF-8 text agrees with comparison by code point, so the text is assumed to be valid UTF-8.
* A Go `map[string]V` is an association list `GoMap V` holding each key at most once.
  The position of an entry in the list is its first insertion; Go gives that position
  no meaning, and nothing that reads a map below depends on it except where stated.
* `*chapter` and `*note` pointers are never aliased: every pointer is created by
  `toChapter` / `toNote` and stored in exactly one place. A mutation through a pointer is
  therefore the replacement of the value stored at that place.
-/

namespace Orol2md

/-! ## Go runtime and library functions used by the program -/

/-- A Go `map[string]V`: association list, each key at most once. -/
abbrev GoMap (V : Type) := List (String × V)

/-- Go `v, ok := m[k]`. -/
def mapGet {V : Type} (m : GoMap V) (k : String) : Option V :=
  List.lookup k m

/-- Go `m[k] = v`: overwrite the entry of `k` when present, otherwise add one. -/
def mapSet {V : Type} : GoMap V → String → V → GoMap V
  | [], k, v => [(k, v)]
  | (k', v') :: m, k, v => if k' = k then (k, v) :: m else (k', v') :: mapSet m k v

/-- The keys of a Go map, in storage order. -/
def mapKeys {V : Type} (m : GoMap V) : List String :=
  m.map Prod.fst

/-- Scanning loop of `strings.ReplaceAll` for a non-empty `old`: left to right, replacing
every non-overlapping occurrence. The counter is the number of characters of the
current occurrence that are still to be skipped. -/
def replaceFrom (old new : List Char) : Nat → List Char → List Char
  | _, [] => []
  | skip + 1, _ :: cs => replaceFrom old new skip cs
  | 0, c :: cs =>
    if old.isPrefixOf (c :: cs) then new ++ replaceFrom old new (old.length - 1) cs
    else c :: replaceFrom old new 0 cs

/-- Go `strings.ReplaceAll(s, old, new)`. With an empty `old` the replacement is inserted
before every character and at the end. -/
def stringsReplaceAll (s old new : String) : String :=
  if old.data = [] then String.mk (new.data ++ s.data.flatMap (fun c => c :: new.data))
  else String.mk (replaceFrom old.data new.data 0 s.data)

/-- Concatenation of the pieces written to the output, in order. -/
def joinStr : List String → String
  | [] => ""
  | s :: ss => s ++ joinStr ss

/-- The white space removed by a template trim marker: space, tab, carriage return, newline. -/
def isTrimSpace (c : Char) : Bool :=
  c = ' ' || c = '\t' || c = '\r' || c = '\n'

/-- Effect of the trim marker of `{{- ...}}` on the template text that precedes the action:
the trailing white space of that text is dropped. -/
def trimRightSpace (s : String) : String :=
  String.mk (s.data.reverse.dropWhile isTrimSpace).reverse

/-- Order in which `text/template` visits a map with string keys: ascending keys,
compared byte-wise. -/
def sortKeys (ks : List String) : List String :=
  List.insertionSort (fun a b : String => a.data ≤ b.data) ks

/-- The values a template `range` over a map visits: the value of every key, keys ascending. -/
def templateRange {V : Type} (m : GoMap V) : List V :=
  (sortKeys (mapKeys m)).filterMap (mapGet m)

/-! ## Data model (`src/main.go`, lines 140-212) -/

/-- Go `type inputRow struct`. -/
structure inputRow where
  title : String
  authors : String
  chapter : String
  date : String
  bookURL : String
  chapterURL : String
  highlightURL : String
  highlight : String
  note : String
deriving DecidableEq, Repr

/-- Go `type note struct`. -/
structure note where
  Highlight : String
  Personal : String
  URL : String
deriving DecidableEq, Repr

/-- Go `type chapter struct`. -/
structure chapter where
  Title : String
  URL : String
  Notes : List note
deriving DecidableEq, Repr

/-- Go `type book struct`. -/
structure book where
  Title : String
  Authors : String
  URL : String
  Chapters : GoMap chapter
deriving DecidableEq, Repr

/-- Go `arr2inputRow`: positional read of `arr[0]` .. `arr[8]`; an index out of range
(fewer than 9 elements) is a run-time panic, modelled as `none`. -/
def arr2inputRow : List String → Option inputRow
  | a0 :: a1 :: a2 :: a3 :: a4 :: a5 :: a6 :: a7 :: a8 :: _ =>
    some ⟨a0, a1, a2, a3, a4, a5, a6, a7, a8⟩
  | _ => none

/-- Go `(r *inputRow) toNote`. -/
def inputRow.toNote (r : inputRow) : Orol2md.note :=
  { Highlight := stringsReplaceAll r.highlight "\n" ""
    URL := r.highlightURL
    Personal := stringsReplaceAll r.note "\n" "" }

/-- Go `(r *inputRow) toChapter`. -/
def inputRow.toChapter (r : inputRow) : Orol2md.chapter :=
  { Title := r.chapter
    URL := r.chapterURL
    Notes := [] ++ [r.toNote] }

/-- Go `(r *inputRow) toBook`. -/
def inputRow.toBook (r : inputRow) : book :=
  { Title := r.title
    Authors := r.authors
    URL := r.bookURL
    Chapters := mapSet [] r.chapter r.toChapter }

/-- The record of 9 fields, in column order, that carries the row `r`. Every record of 9
fields is of this form (`exists_row_of_length_nine`), so a statement over all lists
`rows.map inputRow.toArr` is a statement over all sequences of 9-field records. -/
def inputRow.toArr (r : inputRow) : List String :=
  [r.title, r.authors, r.chapter, r.date, r.bookURL, r.chapterURL, r.highlightURL,
    r.highlight, r.note]

/-! ## Aggregation loop (`main`, lines 105-119) -/

/-- Body of the aggregation loop for a parsed row. `re` is the compiled title filter
(`re.Match`). The chapter `c` is reached through a pointer stored in `b.Chapters`, and
`b.Chapters` is the map shared with the entry of `ms`: both updates are written back. -/
def addRow (re : String → Bool) (ms : GoMap book) (row : inputRow) : GoMap book :=
  if re row.title then
    match mapGet ms row.title with
    | some b =>
      match mapGet b.Chapters row.chapter with
      | some c =>
        mapSet ms row.title
          { b with Chapters :=
              mapSet b.Chapters row.chapter { c with Notes := c.Notes ++ [row.toNote] } }
      | none =>
        mapSet ms row.title { b with Chapters := mapSet b.Chapters row.chapter row.toChapter }
    | none => mapSet ms row.title row.toBook
  else ms

/-- The loop `for _, rec := range records[1:]` started in the Match set `ms`; `none` is the
panic of `arr2inputRow`. -/
def aggregateFrom (re : String → Bool) : List (List String) → GoMap book → Option (GoMap book)
  | [], ms => some ms
  | rec :: rest, ms =>
    match arr2inputRow rec with
    | none => none
    | some row => aggregateFrom re rest (addRow re ms row)

/-- The Match set built from the data records: `matches := make(map[string]book)` followed
by the loop. -/
def aggregate (re : String → Bool) (dataRecords : List (List String)) : Option (GoMap book) :=
  aggregateFrom re dataRecords []

/-- Total number of Notes over all Chapters of all Books of a Match set. -/
def totalNotes (ms : GoMap book) : Nat :=
  (ms.map (fun kb => (kb.2.Chapters.map (fun kc => kc.2.Notes.length)).sum)).sum

/-- Number of Chapters over all Books of a Match set. -/
def totalChapters (ms : GoMap book) : Nat :=
  (ms.map (fun kb => kb.2.Chapters.length)).sum

/-- The Note sequence of Chapter `c` of Book `t` (empty when there is no such Chapter). -/
def notesOf (ms : GoMap book) (t c : String) : List note :=
  match mapGet ms t with
  | some b =>
    match mapGet b.Chapters c with
    | some ch => ch.Notes
    | none => []
  | none => []

/-- The Chapter `c` of Book `t`, when the Match set has one. -/
def chapterOf (ms : GoMap book) (t c : String) : Option chapter :=
  match mapGet ms t with
  | some b => mapGet b.Chapters c
  | none => none

/-! ## Format adapter (`mkObsidian`, lines 214-220) -/

/-- Go `(b *book) mkObsidian`: every note of every chapter gets its highlight rewritten in
place; the visiting order of the map is irrelevant, every entry is visited once. -/
def book.mkObsidian (b : book) : book :=
  { b with
    Chapters := b.Chapters.map (fun kc =>
      (kc.1,
        { Title := kc.2.Title
          URL := kc.2.URL
          Notes := kc.2.Notes.map (fun n =>
            { Highlight := stringsReplaceAll n.Highlight "#" "\\#"
              Personal := n.Personal
              URL := n.URL }) })) }

/-- The escaping as the specification words it: every hash sign of the text is replaced by
a backslash followed by the hash sign, every other character is kept. -/
def escapeHash (s : String) : String :=
  String.mk (s.data.flatMap (fun c => if c = '#' then ['\\', '#'] else [c]))

/-! ## Renderer (`BookNotesTmpl`, lines 29-41, executed at line 134) -/

/-- Body of `range .Notes` (template lines 37-40). -/
def renderNote (n : note) : String :=
  "\n\"" ++ n.Highlight ++ "\" ([link](" ++ n.URL ++ "))\n"
    ++ (if n.Personal.utf8ByteSize > 0 then "> " ++ n.Personal else "") ++ "\n"

/-- Body of `range .Chapters` (template lines 33-41); the newline before the closing
`{{- end}}` is subject to its trim marker. -/
def renderChapter (c : chapter) : String :=
  "\n\n## " ++ c.Title ++ "\n- URL: " ++ c.URL ++ "\n"
    ++ joinStr (c.Notes.map renderNote) ++ trimRightSpace "\n"

/-- Execution of `BookNotesTmpl` on a book: `tmpl.Execute(file, m)`. The blank line before
`{{- range .Chapters}}` is subject to its trim marker. -/
def render (b : book) : String :=
  "# " ++ b.Title ++ "\n- Authors: " ++ b.Authors ++ "\n- URL: " ++ b.URL ++ trimRightSpace "\n\n"
    ++ joinStr ((templateRange b.Chapters).map renderChapter)

/-! ## Confirmation prompt (`askConfirm`, lines 222-238) -/

/-- What a call of `askConfirm` leaves behind: its answer and what it printed. -/
structure Confirmation where
  answer : Bool
  printed : List String
deriving DecidableEq, Repr

/-- Go `bufio.MaxScanTokenSize`, the buffer limit of a `bufio.Scanner` whose `Buffer`
method is never called. -/
def maxScanTokenSize : Nat := 64 * 1024

/-- The line a `bufio.Scanner` with the default `ScanLines` yields for the raw line `raw`
(the bytes before the newline): one trailing carriage return is dropped. -/
def dropCR (raw : String) : String :=
  match raw.data.reverse with
  | '\r' :: cs => String.mk cs.reverse
  | _ => raw

/-- The loop `for s.Scan()` of `askConfirm` over the raw lines its scanner reads; the end
of the list is the end of input. A raw line of `maxScanTokenSize` bytes or more does not
fit the buffer: `Scan` returns false and the loop ends. `ask` already carries the
`(yes/[no]) ` suffix. -/
def askConfirmLoop (ask : String) : List String → Confirmation
  | [] => ⟨false, []⟩
  | raw :: rest =>
    if raw.utf8ByteSize ≥ maxScanTokenSize then ⟨false, []⟩
    else
      match (dropCR raw).data with
      | [] => ⟨false, []⟩
      | c :: _ =>
        if c = 'y' ∨ c = 'Y' then ⟨true, []⟩
        else if c = 'n' ∨ c = 'N' then ⟨false, []⟩
        else
          let k := askConfirmLoop ask rest
          ⟨k.answer, ("\n" ++ ask) :: k.printed⟩

/-- Go `askConfirm`; `lines` are the raw lines that the scanner this call creates on
standard input reads. -/
def askConfirm (ask : String) (lines : List String) : Confirmation :=
  let ask := ask ++ "(yes/[no]) "
  let k := askConfirmLoop ask lines
  ⟨k.answer, ask :: k.printed⟩

/-- A line that ends the prompt as the specification words it: empty, or beginning with
`y`, `Y`, `n` or `N`. -/
def isAnswer (line : String) : Bool :=
  match line.data with
  | [] => true
  | c :: _ => c = 'y' || c = 'Y' || c = 'n' || c = 'N'

/-- A line that accepts as the specification words it: beginning with `y` or `Y`. -/
def isYes (line : String) : Bool :=
  match line.data with
  | [] => false
  | c :: _ => c = 'y' || c = 'Y'

/-! ## The run (`main`, lines 43-138) -/

/-- The command line flags read by the run. -/
structure Flags where
  flagOutput : String
  flagTitle : String
  flagMultiAllow : Bool
  flagObsidian : Bool

/-- Result of `os.Stat` on the output folder: a directory, something that is not a
directory, nothing (`fs.ErrNotExist`), or another error. -/
inductive StatResult where
  | isDir
  | notDir
  | notExist
  | failure
deriving DecidableEq, Repr

/-- Behaviour of the command line, the libraries and the operating system the run depends
on: the number of positional arguments (`flag.NArg`), `os.Getwd` (`none` is an error),
`os.Stat` on the output folder, whether `os.MkdirAll` fails, whether `os.Open` of the
input file fails, `regexp.Compile` (`none` is a compile error), `path.Join`, whether
`os.Create` fails on a path, the `%q` quoting of `fmt.Sprintf`, and the order in which
`for range` visits the entries of the Match set (left unspecified by Go; some permutation
of the entries). -/
structure Env where
  nArg : Nat
  getwd : Option String
  stat : String → StatResult
  mkdirAllFails : String → Bool
  openFails : Bool
  regexpCompile : String → Option (String → Bool)
  pathJoin : String → String → String
  createFails : String → Bool
  quote : String → String
  rangeOrder : GoMap book → List (String × book)

/-- What a run leaves behind: the exit status, the files written (path and content, in
order of creation) and what was printed on standard output. -/
structure Outcome where
  status : Nat
  files : List (String × String)
  stdout : List String
deriving DecidableEq, Repr

/-- The start of `main` (lines 50-87): the search term and the input argument are required,
the output folder is resolved (the working directory when the flag is empty, created
when it does not exist), the constant template is parsed and the input file is opened.
The result is the resolved output folder; `none` is an exit through `log.Fatalf`. -/
def setup (env : Env) (flags : Flags) : Option String :=
  if flags.flagTitle = "" then none
  else if env.nArg < 1 then none
  else
    let folder : Option String :=
      if flags.flagOutput = "" then env.getwd
      else
        match env.stat flags.flagOutput with
        | StatResult.notExist =>
          if env.mkdirAllFails flags.flagOutput then none else some flags.flagOutput
        | StatResult.failure => none
        | StatResult.notDir => none
        | StatResult.isDir => some flags.flagOutput
    match folder with
    | none => none
    | some dir => if env.openFails then none else some dir

/-- The call `reader.ReadAll()` of a `csv.Reader` with `FieldsPerRecord` set to a positive
number, on a table already split into records and fields: an error (`none`) when
some record has another number of fields. -/
def readAll (fieldsPerRecord : Nat) (table : List (List String)) : Option (List (List String)) :=
  if table.all (fun rec => rec.length == fieldsPerRecord) then some table else none

/-- The loop `for _, m := range matches` of `main` (lines 121-137); `n` is `len(matches)` and
`flags.flagOutput` the resolved output folder. Every call of `askConfirm` builds its own
scanner on standard input: `stdin` lists, call after call, the raw lines that scanner
reads (on a terminal the lines typed at that prompt; on a pipe the first scanner may read
everything and leave the later ones at the end of input). A failing `os.Create` ends the
run with status 1 (`log.Fatalf`). -/
def outputLoop (env : Env) (flags : Flags) (n : Nat) :
    List (String × book) → List (List String) → Outcome → Outcome
  | [], _, out => out
  | (_, m) :: rest, stdin, out =>
    let gate : Bool := n > 1 && !flags.flagMultiAllow
    let k : Confirmation :=
      if gate then askConfirm ("Process book " ++ env.quote m.Title ++ "? ") (stdin.headD [])
      else ⟨true, []⟩
    let stdin1 := if gate then stdin.tail else stdin
    let out1 : Outcome := { out with stdout := out.stdout ++ k.printed }
    if !k.answer then outputLoop env flags n rest stdin1 out1
    else
      let file := env.pathJoin flags.flagOutput (m.Title ++ " - notes.md")
      if env.createFails file then { out1 with status := 1 }
      else
        let m1 := if flags.flagObsidian then m.mkObsidian else m
        outputLoop env flags n rest stdin1 { out1 with files := out1.files ++ [(file, render m1)] }

/-- Go `main`: `table` is the content of the input file, `stdin` the raw lines read by the
scanner of each call of `askConfirm`. Status 1 is `log.Fatalf` or `os.Exit(1)`, status 2 a
run-time panic, status 0 the normal return. -/
def main (env : Env) (flags : Flags) (table : List (List String))
    (stdin : List (List String)) : Outcome :=
  match setup env flags with
  | none => ⟨1, [], []⟩
  | some dir =>
    match readAll 9 table with
    | none => ⟨1, [], []⟩
    | some records =>
      if records.length < 1 then ⟨1, [], []⟩
      else
        match env.regexpCompile ("(?i)" ++ flags.flagTitle) with
        | none => ⟨1, [], []⟩
        | some re =>
          match aggregate re (records.drop 1) with
          | none => ⟨2, [], []⟩
          | some ms =>
            outputLoop env { flags with flagOutput := dir } ms.length (env.rangeOrder ms) stdin
              ⟨0, [], []⟩

/-! ## Reference definitions used to state the properties -/

/-- The stripping of a field as the specification words it: every newline character is
dropped, every other character is kept, in order. -/
def removeNewlines (s : String) : String :=
  String.mk (s.data.filter (fun c => c ≠ '\n'))

/-- Well-formedness of a Match set: every key is the Title of the Book stored under it,
every Book has at least one Chapter, every key of a Chapters mapping is the Title of the
Chapter stored under it, and every Chapter has at least one Note. -/
def wellFormed (ms : GoMap book) : Bool :=
  ms.all (fun kb =>
    kb.2.Title == kb.1 && !kb.2.Chapters.isEmpty
      && kb.2.Chapters.all (fun kc => kc.2.Title == kc.1 && !kc.2.Notes.isEmpty))

/-- A raw line that the scanner cannot hold, as the amended specification words it: of
65536 bytes or more. -/
def tooLong (raw : String) : Bool :=
  raw.utf8ByteSize ≥ 65536

/-! ## Lemmas on Go maps -/

theorem mapGet_nil {V : Type} (k : String) : mapGet ([] : GoMap V) k = none := rfl

theorem mapGet_cons {V : Type} (k k' : String) (v : V) (m : GoMap V) :
    mapGet ((k', v) :: m) k = if k = k' then some v else mapGet m k := by
  unfold mapGet
  by_cases h : k = k'
  · subst h; simp [List.lookup]
  · have hb : (k == k') = false := by simpa using h
    simp [List.lookup, hb, h]

theorem mapGet_mapSet {V : Type} (m : GoMap V) (k : String) (v : V) (k' : String) :
    mapGet (mapSet m k v) k' = if k' = k then some v else mapGet m k' := by
  induction m with
  | nil => simp [mapSet, mapGet_cons, mapGet_nil]
  | cons kv m ih =>
    obtain ⟨k0, v0⟩ := kv
    by_cases h0 : k0 = k
    · subst h0
      simp only [mapSet, if_true, mapGet_cons]
      split <;> rfl
    · simp only [mapSet, if_neg h0, mapGet_cons, ih]
      by_cases h1 : k' = k0
      · have : k' ≠ k := fun h => h0 (h1.symm.trans h)
        simp [h1, h0]
      · simp [h1]

theorem mapGet_mapSet_same {V : Type} (m : GoMap V) (k : String) (v : V) :
    mapGet (mapSet m k v) k = some v := by
  simp [mapGet_mapSet]

theorem mapGet_mapSet_other {V : Type} (m : GoMap V) (k : String) (v : V) (k' : String)
    (h : k' ≠ k) : mapGet (mapSet m k v) k' = mapGet m k' := by
  simp [mapGet_mapSet, h]

theorem mapGet_eq_none_iff {V : Type} (m : GoMap V) (k : String) :
    mapGet m k = none ↔ k ∉ mapKeys m := by
  induction m with
  | nil => simp [mapGet_nil, mapKeys]
  | cons kv m ih =>
    obtain ⟨k0, v0⟩ := kv
    by_cases h : k = k0
    · simp [mapGet_cons, h, mapKeys]
    · simp only [mapGet_cons, if_neg h, ih]
      simp [mapKeys, h]

theorem mem_mapKeys_iff_isSome {V : Type} (m : GoMap V) (k : String) :
    k ∈ mapKeys m ↔ ∃ v, mapGet m k = some v := by
  rw [← not_iff_not, ← mapGet_eq_none_iff]
  cases mapGet m k <;> simp

theorem mapKeys_mapSet {V : Type} (m : GoMap V) (k : String) (v : V) :
    mapKeys (mapSet m k v) = if k ∈ mapKeys m then mapKeys m else mapKeys m ++ [k] := by
  induction m with
  | nil => simp [mapSet, mapKeys]
  | cons kv m ih =>
    obtain ⟨k0, v0⟩ := kv
    by_cases h0 : k0 = k
    · subst h0
      simp [mapSet, mapKeys]
    · have h0' : ¬ k = k0 := fun h => h0 h.symm
      have ih' := ih
      simp only [mapKeys] at ih' ⊢
      simp only [mapSet, if_neg h0, List.map_cons, ih', List.mem_cons, h0', false_or]
      split <;> simp

theorem mem_mapKeys_mapSet {V : Type} (m : GoMap V) (k : String) (v : V) (k' : String) :
    k' ∈ mapKeys (mapSet m k v) ↔ k' = k ∨ k' ∈ mapKeys m := by
  rw [mapKeys_mapSet]
  split
  · constructor
    · intro h; exact Or.inr h
    · rintro (h | h)
      · subst h; assumption
      · exact h
  · simp [or_comm]

theorem nodup_mapKeys_mapSet {V : Type} (m : GoMap V) (k : String) (v : V)
    (h : (mapKeys m).Nodup) : (mapKeys (mapSet m k v)).Nodup := by
  rw [mapKeys_mapSet]
  split
  · exact h
  · rename_i hk
    exact List.Nodup.append h (List.nodup_singleton k) (by simpa using hk)

theorem mapGet_of_mem {V : Type} (m : GoMap V) (h : (mapKeys m).Nodup) (k : String) (v : V) :
    (k, v) ∈ m ↔ mapGet m k = some v := by
  induction m with
  | nil => simp [mapGet_nil]
  | cons kv m ih =>
    obtain ⟨k0, v0⟩ := kv
    simp only [mapKeys, List.map_cons, List.nodup_cons] at h
    have ih' := ih h.2
    by_cases hk : k = k0
    · subst hk
      simp only [List.mem_cons, Prod.mk.injEq, true_and, mapGet_cons, if_true, Option.some.injEq]
      constructor
      · rintro (h1 | h1)
        · exact h1.symm
        · exact absurd (List.mem_map_of_mem Prod.fst h1) h.1
      · intro h1; exact Or.inl h1.symm
    · simp [mapGet_cons, hk, ih']

/-! ## Lemmas on the aggregation loop -/

theorem arr2inputRow_toArr (r : inputRow) : arr2inputRow r.toArr = some r := rfl

theorem exists_row_of_length_nine (rec : List String) (h : rec.length = 9) :
    ∃ r : inputRow, rec = r.toArr := by
  match rec, h with
  | [a0, a1, a2, a3, a4, a5, a6, a7, a8], _ =>
    exact ⟨⟨a0, a1, a2, a3, a4, a5, a6, a7, a8⟩, rfl⟩

theorem exists_rows_of_length_nine (records : List (List String))
    (h : ∀ rec ∈ records, rec.length = 9) :
    ∃ rows : List inputRow, records = rows.map inputRow.toArr := by
  induction records with
  | nil => exact ⟨[], rfl⟩
  | cons rec records ih =>
    obtain ⟨r, hr⟩ := exists_row_of_length_nine rec (h rec (List.mem_cons_self rec records))
    obtain ⟨rows, hrows⟩ := ih (fun x hx => h x (List.mem_cons_of_mem rec hx))
    exact ⟨r :: rows, by rw [hr, hrows]; rfl⟩

theorem aggregateFrom_toArr (re : String → Bool) (rows : List inputRow) (ms : GoMap book) :
    aggregateFrom re (rows.map inputRow.toArr) ms = some (rows.foldl (addRow re) ms) := by
  induction rows generalizing ms with
  | nil => rfl
  | cons r rows ih =>
    simp only [List.map_cons, aggregateFrom, arr2inputRow_toArr, List.foldl_cons]
    exact ih _

theorem aggregate_toArr (re : String → Bool) (rows : List inputRow) :
    aggregate re (rows.map inputRow.toArr) = some (rows.foldl (addRow re) []) :=
  aggregateFrom_toArr re rows []

theorem addRow_of_not_match (re : String → Bool) (ms : GoMap book) (r : inputRow)
    (h : re r.title = false) : addRow re ms r = ms := by
  simp [addRow, h]

theorem addRow_new (re : String → Bool) (ms : GoMap book) (r : inputRow)
    (h : re r.title = true) (hg : mapGet ms r.title = none) :
    addRow re ms r = mapSet ms r.title r.toBook := by
  simp [addRow, h, hg]

theorem addRow_newChapter (re : String → Bool) (ms : GoMap book) (r : inputRow) (b : book)
    (h : re r.title = true) (hg : mapGet ms r.title = some b)
    (hc : mapGet b.Chapters r.chapter = none) :
    addRow re ms r
      = mapSet ms r.title { b with Chapters := mapSet b.Chapters r.chapter r.toChapter } := by
  simp [addRow, h, hg, hc]

theorem addRow_append (re : String → Bool) (ms : GoMap book) (r : inputRow) (b : book)
    (c : chapter) (h : re r.title = true) (hg : mapGet ms r.title = some b)
    (hc : mapGet b.Chapters r.chapter = some c) :
    addRow re ms r
      = mapSet ms r.title { b with Chapters := mapSet b.Chapters r.chapter { c with Notes := c.Notes ++ [r.toNote] } } := by
  simp [addRow, h, hg, hc]

theorem addRow_eq_mapSet (re : String → Bool) (ms : GoMap book) (r : inputRow)
    (h : re r.title = true) : ∃ b, addRow re ms r = mapSet ms r.title b := by
  cases hg : mapGet ms r.title with
  | none => exact ⟨_, addRow_new re ms r h hg⟩
  | some b =>
    cases hc : mapGet b.Chapters r.chapter with
    | none => exact ⟨_, addRow_newChapter re ms r b h hg hc⟩
    | some c => exact ⟨_, addRow_append re ms r b c h hg hc⟩

theorem mapGet_addRow_other (re : String → Bool) (ms : GoMap book) (r : inputRow) (t : String)
    (h : ¬ (re r.title = true ∧ r.title = t)) : mapGet (addRow re ms r) t = mapGet ms t := by
  by_cases hm : re r.title = true
  · obtain ⟨b, hb⟩ := addRow_eq_mapSet re ms r hm
    rw [hb, mapGet_mapSet_other]
    intro ht
    exact h ⟨hm, ht.symm⟩
  · rw [addRow_of_not_match re ms r (by simpa using hm)]

theorem sum_map_mapSet {V : Type} (f : V → Nat) (m : GoMap V) (k : String) (v : V) :
    ((mapSet m k v).map (fun kv => f kv.2)).sum + (mapGet m k).elim 0 f
      = (m.map (fun kv => f kv.2)).sum + f v := by
  induction m with
  | nil => simp [mapSet, mapGet_nil]
  | cons kv m ih =>
    obtain ⟨k0, v0⟩ := kv
    by_cases h0 : k0 = k
    · subst h0
      simp only [mapSet, if_true, List.map_cons, List.sum_cons, mapGet_cons, Option.elim]
      omega
    · have h0' : ¬ k = k0 := fun h => h0 h.symm
      simp only [mapSet, if_neg h0, List.map_cons, List.sum_cons, mapGet_cons, if_neg h0']
      omega

theorem totalNotes_mapSet (ms : GoMap book) (k : String) (b : book) :
    totalNotes (mapSet ms k b)
        + (mapGet ms k).elim 0 (fun o => (o.Chapters.map (fun kc => kc.2.Notes.length)).sum)
      = totalNotes ms + (b.Chapters.map (fun kc => kc.2.Notes.length)).sum := by
  unfold totalNotes
  exact sum_map_mapSet
    (fun b : book => (b.Chapters.map (fun kc : String × chapter => kc.2.Notes.length)).sum) ms k b

theorem totalNotes_addRow (re : String → Bool) (ms : GoMap book) (r : inputRow) :
    totalNotes (addRow re ms r) = totalNotes ms + (if re r.title = true then 1 else 0) := by
  by_cases h : re r.title = true
  · rw [if_pos h]
    cases hg : mapGet ms r.title with
    | none =>
      have h2 := totalNotes_mapSet ms r.title r.toBook
      rw [addRow_new re ms r h hg]
      simp only [hg, Option.elim] at h2
      simp only [inputRow.toBook, inputRow.toChapter, mapSet, List.map_cons, List.map_nil,
        List.sum_cons, List.sum_nil, List.nil_append, List.length_singleton] at h2 ⊢
      omega
    | some b =>
      cases hc : mapGet b.Chapters r.chapter with
      | none =>
        have h1 := sum_map_mapSet (fun c : chapter => c.Notes.length) b.Chapters r.chapter
          r.toChapter
        have h2 := totalNotes_mapSet ms r.title
          { b with Chapters := mapSet b.Chapters r.chapter r.toChapter }
        rw [addRow_newChapter re ms r b h hg hc]
        simp only [hg, hc, Option.elim] at h1 h2
        simp only [inputRow.toChapter, List.nil_append, List.length_singleton] at h1 h2 ⊢
        omega
      | some c =>
        have h1 := sum_map_mapSet (fun c : chapter => c.Notes.length) b.Chapters r.chapter
          { c with Notes := c.Notes ++ [r.toNote] }
        have h2 := totalNotes_mapSet ms r.title
          { b with Chapters := mapSet b.Chapters r.chapter { c with Notes := c.Notes ++ [r.toNote] } }
        rw [addRow_append re ms r b c h hg hc]
        simp only [hg, hc, Option.elim] at h1 h2
        simp only [List.length_append, List.length_singleton] at h1 h2 ⊢
        omega
  · have h' : re r.title = false := by simpa using h
    rw [addRow_of_not_match re ms r h', if_neg h]
    rfl

theorem totalNotes_foldl (re : String → Bool) (rows : List inputRow) (ms : GoMap book) :
    totalNotes (rows.foldl (addRow re) ms)
      = totalNotes ms + (rows.filter (fun r => re r.title)).length := by
  induction rows generalizing ms with
  | nil => simp
  | cons r rows ih =>
    rw [List.foldl_cons, ih, totalNotes_addRow]
    by_cases h : re r.title = true
    · simp [h]; omega
    · simp [h]

theorem notesOf_addRow (re : String → Bool) (ms : GoMap book) (r : inputRow) (t c : String) :
    notesOf (addRow re ms r) t c
      = notesOf ms t c
        ++ (if re r.title = true ∧ r.title = t ∧ r.chapter = c then [r.toNote] else []) := by
  by_cases h : re r.title = true ∧ r.title = t
  · obtain ⟨hm, ht⟩ := h
    subst ht
    unfold notesOf
    cases hg : mapGet ms r.title with
    | none =>
      rw [addRow_new re ms r hm hg, mapGet_mapSet_same]
      simp only [inputRow.toBook, mapGet_mapSet, mapGet_nil, hm, true_and]
      by_cases hcc : c = r.chapter
      · subst hcc; simp [inputRow.toChapter]
      · have : ¬ r.chapter = c := fun h => hcc h.symm
        simp [hcc, this]
    | some b =>
      cases hc : mapGet b.Chapters r.chapter with
      | none =>
        rw [addRow_newChapter re ms r b hm hg hc, mapGet_mapSet_same]
        simp only [mapGet_mapSet, hm, true_and]
        by_cases hcc : c = r.chapter
        · subst hcc; simp [inputRow.toChapter, hc]
        · have : ¬ r.chapter = c := fun h => hcc h.symm
          simp [hcc, this]
      | some ch =>
        rw [addRow_append re ms r b ch hm hg hc, mapGet_mapSet_same]
        simp only [mapGet_mapSet, hm, true_and]
        by_cases hcc : c = r.chapter
        · subst hcc; simp [hc]
        · have : ¬ r.chapter = c := fun h => hcc h.symm
          simp [hcc, this]
  · rw [notesOf, mapGet_addRow_other re ms r t h, ← notesOf]
    have : ¬ (re r.title = true ∧ r.title = t ∧ r.chapter = c) :=
      fun h' => h ⟨h'.1, h'.2.1⟩
    simp [this]

theorem notesOf_foldl (re : String → Bool) (rows : List inputRow) (ms : GoMap book)
    (t c : String) :
    notesOf (rows.foldl (addRow re) ms) t c
      = notesOf ms t c
        ++ (rows.filter (fun r => re r.title && r.title == t && r.chapter == c)).map
            inputRow.toNote := by
  induction rows generalizing ms with
  | nil => simp
  | cons r rows ih =>
    rw [List.foldl_cons, ih, notesOf_addRow, List.append_assoc]
    congr 1
    by_cases h : re r.title = true ∧ r.title = t ∧ r.chapter = c
    · obtain ⟨h1, h2, h3⟩ := h
      subst h2 h3
      simp [List.filter_cons, h1]
    · rw [if_neg h]
      have hf : (re r.title && r.title == t && r.chapter == c) = false := by
        rw [Bool.eq_false_iff]
        intro hh
        simp only [Bool.and_eq_true, beq_iff_eq] at hh
        exact h ⟨hh.1.1, hh.1.2, hh.2⟩
      simp [List.filter_cons, hf]

theorem chapterOf_addRow (re : String → Bool) (ms : GoMap book) (r : inputRow) (t c : String) :
    (chapterOf (addRow re ms r) t c).isSome
      = ((chapterOf ms t c).isSome || (re r.title && r.title == t && r.chapter == c)) := by
  by_cases h : re r.title = true ∧ r.title = t
  · obtain ⟨hm, ht⟩ := h
    subst ht
    unfold chapterOf
    cases hg : mapGet ms r.title with
    | none =>
      rw [addRow_new re ms r hm hg, mapGet_mapSet_same]
      simp only [inputRow.toBook, mapGet_mapSet, mapGet_nil, hm]
      by_cases hcc : c = r.chapter
      · subst hcc; simp
      · have : ¬ r.chapter = c := fun h => hcc h.symm
        simp [hcc, this]
    | some b =>
      cases hc : mapGet b.Chapters r.chapter with
      | none =>
        rw [addRow_newChapter re ms r b hm hg hc, mapGet_mapSet_same]
        simp only [mapGet_mapSet, hm]
        by_cases hcc : c = r.chapter
        · subst hcc; simp
        · have : ¬ r.chapter = c := fun h => hcc h.symm
          simp [hcc, this]
      | some ch =>
        rw [addRow_append re ms r b ch hm hg hc, mapGet_mapSet_same]
        simp only [mapGet_mapSet, hm]
        by_cases hcc : c = r.chapter
        · subst hcc; simp
        · have : ¬ r.chapter = c := fun h => hcc h.symm
          simp [hcc, this]
  · rw [chapterOf, mapGet_addRow_other re ms r t h, ← chapterOf]
    have hf : (re r.title && r.title == t) = false := by
      rw [Bool.eq_false_iff]
      intro hh
      simp only [Bool.and_eq_true, beq_iff_eq] at hh
      exact h hh
    simp [hf]

theorem chapterOf_foldl (re : String → Bool) (rows : List inputRow) (ms : GoMap book)
    (t c : String) :
    (chapterOf (rows.foldl (addRow re) ms) t c).isSome
      = ((chapterOf ms t c).isSome
          || rows.any (fun r => re r.title && r.title == t && r.chapter == c)) := by
  induction rows generalizing ms with
  | nil => simp
  | cons r rows ih =>
    rw [List.foldl_cons, ih, chapterOf_addRow, List.any_cons, Bool.or_assoc]

theorem mem_mapKeys_addRow (re : String → Bool) (ms : GoMap book) (r : inputRow) (t : String) :
    t ∈ mapKeys (addRow re ms r) ↔ t ∈ mapKeys ms ∨ (re r.title = true ∧ r.title = t) := by
  by_cases hm : re r.title = true
  · obtain ⟨b, hb⟩ := addRow_eq_mapSet re ms r hm
    rw [hb, mem_mapKeys_mapSet]
    simp only [hm, true_and]
    constructor
    · rintro (h | h)
      · exact Or.inr h.symm
      · exact Or.inl h
    · rintro (h | h)
      · exact Or.inr h
      · exact Or.inl h.symm
  · rw [addRow_of_not_match re ms r (by simpa using hm)]
    simp [hm]

theorem mem_mapKeys_foldl (re : String → Bool) (rows : List inputRow) (ms : GoMap book)
    (t : String) :
    t ∈ mapKeys (rows.foldl (addRow re) ms)
      ↔ t ∈ mapKeys ms ∨ ∃ r ∈ rows, re r.title = true ∧ r.title = t := by
  induction rows generalizing ms with
  | nil => simp
  | cons r rows ih =>
    rw [List.foldl_cons, ih, mem_mapKeys_addRow]
    simp only [List.mem_cons, exists_eq_or_imp, or_assoc]

theorem nodup_mapKeys_addRow (re : String → Bool) (ms : GoMap book) (r : inputRow)
    (h : (mapKeys ms).Nodup) : (mapKeys (addRow re ms r)).Nodup := by
  by_cases hm : re r.title = true
  · obtain ⟨b, hb⟩ := addRow_eq_mapSet re ms r hm
    rw [hb]
    exact nodup_mapKeys_mapSet ms r.title b h
  · rw [addRow_of_not_match re ms r (by simpa using hm)]
    exact h

theorem nodup_mapKeys_foldl (re : String → Bool) (rows : List inputRow) (ms : GoMap book)
    (h : (mapKeys ms).Nodup) : (mapKeys (rows.foldl (addRow re) ms)).Nodup := by
  induction rows generalizing ms with
  | nil => exact h
  | cons r rows ih => exact ih _ (nodup_mapKeys_addRow re ms r h)

theorem nodup_chapters_addRow (re : String → Bool) (ms : GoMap book) (r : inputRow)
    (h : ∀ t b, mapGet ms t = some b → (mapKeys b.Chapters).Nodup) :
    ∀ t b, mapGet (addRow re ms r) t = some b → (mapKeys b.Chapters).Nodup := by
  intro t b hb
  by_cases ht : re r.title = true ∧ r.title = t
  · obtain ⟨hm, ht⟩ := ht
    subst ht
    cases hg : mapGet ms r.title with
    | none =>
      rw [addRow_new re ms r hm hg, mapGet_mapSet_same] at hb
      cases hb
      simp [inputRow.toBook, mapSet, mapKeys]
    | some b0 =>
      cases hc : mapGet b0.Chapters r.chapter with
      | none =>
        rw [addRow_newChapter re ms r b0 hm hg hc, mapGet_mapSet_same] at hb
        cases hb
        exact nodup_mapKeys_mapSet _ _ _ (h _ _ hg)
      | some ch =>
        rw [addRow_append re ms r b0 ch hm hg hc, mapGet_mapSet_same] at hb
        cases hb
        exact nodup_mapKeys_mapSet _ _ _ (h _ _ hg)
  · rw [mapGet_addRow_other re ms r t ht] at hb
    exact h t b hb

theorem nodup_chapters_foldl (re : String → Bool) (rows : List inputRow) (ms : GoMap book)
    (h : ∀ t b, mapGet ms t = some b → (mapKeys b.Chapters).Nodup) :
    ∀ t b, mapGet (rows.foldl (addRow re) ms) t = some b → (mapKeys b.Chapters).Nodup := by
  induction rows generalizing ms with
  | nil => exact h
  | cons r rows ih => exact ih _ (nodup_chapters_addRow re ms r h)

theorem header_addRow (re : String → Bool) (ms : GoMap book) (r : inputRow) (t : String)
    (b : book) (hg : mapGet ms t = some b) :
    ∃ b1, mapGet (addRow re ms r) t = some b1
      ∧ b1.Title = b.Title ∧ b1.Authors = b.Authors ∧ b1.URL = b.URL := by
  by_cases ht : re r.title = true ∧ r.title = t
  · obtain ⟨hm, ht⟩ := ht
    subst ht
    cases hc : mapGet b.Chapters r.chapter with
    | none =>
      rw [addRow_newChapter re ms r b hm hg hc, mapGet_mapSet_same]
      exact ⟨_, rfl, rfl, rfl, rfl⟩
    | some ch =>
      rw [addRow_append re ms r b ch hm hg hc, mapGet_mapSet_same]
      exact ⟨_, rfl, rfl, rfl, rfl⟩
  · rw [mapGet_addRow_other re ms r t ht]
    exact ⟨b, hg, rfl, rfl, rfl⟩

theorem header_foldl_some (re : String → Bool) (rows : List inputRow) (ms : GoMap book)
    (t : String) (b : book) (hg : mapGet ms t = some b) :
    ∃ b1, mapGet (rows.foldl (addRow re) ms) t = some b1
      ∧ b1.Title = b.Title ∧ b1.Authors = b.Authors ∧ b1.URL = b.URL := by
  induction rows generalizing ms b with
  | nil => exact ⟨b, hg, rfl, rfl, rfl⟩
  | cons r rows ih =>
    obtain ⟨b1, h1, e1, e2, e3⟩ := header_addRow re ms r t b hg
    obtain ⟨b2, h2, f1, f2, f3⟩ := ih (addRow re ms r) b1 h1
    exact ⟨b2, h2, f1.trans e1, f2.trans e2, f3.trans e3⟩

theorem header_foldl_none (re : String → Bool) (rows : List inputRow) (ms : GoMap book)
    (t : String) (b : book) (hg : mapGet ms t = none)
    (hb : mapGet (rows.foldl (addRow re) ms) t = some b) :
    ∃ r, rows.find? (fun r => re r.title && r.title == t) = some r
      ∧ b.Title = r.title ∧ b.Authors = r.authors ∧ b.URL = r.bookURL := by
  induction rows generalizing ms with
  | nil => simp [hg] at hb
  | cons r rows ih =>
    by_cases ht : re r.title = true ∧ r.title = t
    · obtain ⟨hm, ht⟩ := ht
      subst ht
      have h1 : mapGet (addRow re ms r) r.title = some r.toBook := by
        rw [addRow_new re ms r hm hg, mapGet_mapSet_same]
      obtain ⟨b2, h2, f1, f2, f3⟩ := header_foldl_some re rows _ r.title _ h1
      rw [List.foldl_cons, h2] at hb
      cases hb
      refine ⟨r, ?_, f1, f2, f3⟩
      simp [List.find?_cons, hm]
    · have h1 : mapGet (addRow re ms r) t = none := by
        rw [mapGet_addRow_other re ms r t ht]; exact hg
      obtain ⟨r1, hr1, e⟩ := ih (addRow re ms r) h1 hb
      refine ⟨r1, ?_, e⟩
      have hf : (re r.title && r.title == t) = false := by
        rw [Bool.eq_false_iff]
        intro hh
        simp only [Bool.and_eq_true, beq_iff_eq] at hh
        exact ht hh
      simp only [List.find?_cons, hf]
      exact hr1

/-! ## Properties of the aggregation loop -/

/-- C1: for every sequence of 9-field data rows and every title filter, the aggregation loop
returns a Match set whose total number of Notes, over all Chapters of all Books, is the
number of rows whose book title matches the filter. Row by row: after any prefix of the
input, a matching row adds exactly one Note, and a non-matching row leaves the Match set
as it is (no Note, no Chapter, no Book). -/
theorem aggregate_note_count (re : String → Bool) (rows : List inputRow) :
    ∃ ms, aggregate re (rows.map inputRow.toArr) = some ms
      ∧ totalNotes ms = (rows.filter (fun r => re r.title)).length
      ∧ ∀ pre r post, rows = pre ++ r :: post →
          ∃ m0 m1, aggregate re (pre.map inputRow.toArr) = some m0
            ∧ aggregate re ((pre ++ [r]).map inputRow.toArr) = some m1
            ∧ (re r.title = true → totalNotes m1 = totalNotes m0 + 1)
            ∧ (re r.title = false → m1 = m0) := by
  refine ⟨_, aggregate_toArr re rows, ?_, ?_⟩
  · rw [totalNotes_foldl]
    simp [totalNotes]
  · intro pre r post _
    refine ⟨_, _, aggregate_toArr re pre, aggregate_toArr re (pre ++ [r]), ?_, ?_⟩
    · intro hm
      rw [List.foldl_append, List.foldl_cons, List.foldl_nil, totalNotes_addRow, if_pos hm]
    · intro hm
      rw [List.foldl_append, List.foldl_cons, List.foldl_nil, addRow_of_not_match re _ r hm]

/-- C2: aggregation is order-preserving. For every input row sequence, every book title `t`
and chapter title `c`, the Note sequence of Chapter `c` of Book `t` in the Match set is the
list of `toNote r` for the matching rows `r` with title `t` and chapter `c`, in input order,
whatever rows of other chapters or books stand between them. This holds of the Chapter
stored in the Match set, and the Match set has no such Chapter exactly when that list is
empty. -/
theorem aggregate_order_preserving (re : String → Bool) (rows : List inputRow) :
    ∃ ms, aggregate re (rows.map inputRow.toArr) = some ms
      ∧ (∀ t c, notesOf ms t c
          = (rows.filter (fun r => re r.title && r.title == t && r.chapter == c)).map
              inputRow.toNote)
      ∧ (∀ t b c ch, (t, b) ∈ ms → (c, ch) ∈ b.Chapters →
          ch.Notes
            = (rows.filter (fun r => re r.title && r.title == t && r.chapter == c)).map
                inputRow.toNote)
      ∧ (∀ t c, chapterOf ms t c = none ↔
          (rows.filter (fun r => re r.title && r.title == t && r.chapter == c)).map
              inputRow.toNote = []) := by
  have hnotes : ∀ t c, notesOf (rows.foldl (addRow re) []) t c
      = (rows.filter (fun r => re r.title && r.title == t && r.chapter == c)).map
          inputRow.toNote := by
    intro t c
    rw [notesOf_foldl]
    simp [notesOf, mapGet_nil]
  refine ⟨_, aggregate_toArr re rows, hnotes, ?_, ?_⟩
  · intro t b c ch hb hc
    have nd1 : (mapKeys (rows.foldl (addRow re) [])).Nodup :=
      nodup_mapKeys_foldl re rows [] (by simp [mapKeys])
    have hb1 := (mapGet_of_mem _ nd1 t b).1 hb
    have nd2 := nodup_chapters_foldl re rows [] (by simp [mapGet_nil]) t b hb1
    have hc1 := (mapGet_of_mem _ nd2 c ch).1 hc
    rw [← hnotes t c]
    simp [notesOf, hb1, hc1]
  · intro t c
    have h := chapterOf_foldl re rows [] t c
    simp only [chapterOf, mapGet_nil, Option.isSome_none, Bool.false_or] at h
    rw [List.map_eq_nil_iff, List.filter_eq_nil_iff]
    cases hch : chapterOf (rows.foldl (addRow re) []) t c with
    | none =>
      simp only [chapterOf] at hch
      rw [hch] at h
      simp only [Option.isSome_none] at h
      have h2 := h.symm
      rw [List.any_eq_false] at h2
      simpa using h2
    | some ch =>
      simp only [chapterOf] at hch
      rw [hch] at h
      simp only [Option.isSome_some] at h
      have h2 := h.symm
      rw [List.any_eq_true] at h2
      obtain ⟨r, hr, hp⟩ := h2
      simp only [false_iff, reduceCtorEq]
      intro hall
      exact hall r hr hp

/-- C3: grouping correctness. For every input row sequence the Match set holds each key
once and its keys are the book titles of the matching rows; every Book of the Match set
holds each chapter key once and its chapter keys are the chapter titles of the matching
rows with that book title. In particular two matching rows with the same book title and
chapter title give one Book with one Chapter with two Notes, and two matching rows with
the same book title and different chapter titles give one Book with two Chapters. -/
theorem aggregate_grouping (re : String → Bool) (rows : List inputRow) :
    (∃ ms, aggregate re (rows.map inputRow.toArr) = some ms
      ∧ (mapKeys ms).Nodup
      ∧ (∀ t, t ∈ mapKeys ms ↔ ∃ r ∈ rows, re r.title = true ∧ r.title = t)
      ∧ (∀ t b, (t, b) ∈ ms →
          (mapKeys b.Chapters).Nodup
          ∧ ∀ c, c ∈ mapKeys b.Chapters
              ↔ ∃ r ∈ rows, re r.title = true ∧ r.title = t ∧ r.chapter = c))
    ∧ (∀ r1 r2 : inputRow, re r1.title = true → r2.title = r1.title →
        r2.chapter = r1.chapter →
        aggregate re [r1.toArr, r2.toArr]
          = some [(r1.title,
              { Title := r1.title, Authors := r1.authors, URL := r1.bookURL,
                Chapters := [(r1.chapter,
                  { Title := r1.chapter, URL := r1.chapterURL,
                    Notes := [r1.toNote, r2.toNote] })] })])
    ∧ (∀ r1 r2 : inputRow, re r1.title = true → r2.title = r1.title →
        r2.chapter ≠ r1.chapter →
        aggregate re [r1.toArr, r2.toArr]
          = some [(r1.title,
              { Title := r1.title, Authors := r1.authors, URL := r1.bookURL,
                Chapters := [(r1.chapter, r1.toChapter), (r2.chapter, r2.toChapter)] })]) := by
  refine ⟨⟨_, aggregate_toArr re rows, ?_, ?_, ?_⟩, ?_, ?_⟩
  · exact nodup_mapKeys_foldl re rows [] (by simp [mapKeys])
  · intro t
    rw [mem_mapKeys_foldl]
    simp [mapKeys]
  · intro t b hb
    have nd1 : (mapKeys (rows.foldl (addRow re) [])).Nodup :=
      nodup_mapKeys_foldl re rows [] (by simp [mapKeys])
    have hb1 := (mapGet_of_mem _ nd1 t b).1 hb
    refine ⟨nodup_chapters_foldl re rows [] (by simp [mapGet_nil]) t b hb1, ?_⟩
    intro c
    have h := chapterOf_foldl re rows [] t c
    simp only [chapterOf, mapGet_nil, Option.isSome_none, Bool.false_or, hb1] at h
    rw [mem_mapKeys_iff_isSome, ← Option.isSome_iff_exists, h, List.any_eq_true]
    simp only [Bool.and_eq_true, beq_iff_eq, and_assoc]
  · intro r1 r2 hm ht hc
    have hm2 : re r2.title = true := by rw [ht]; exact hm
    have e1 : addRow re [] r1 = [(r1.title, r1.toBook)] := by
      rw [addRow_new re [] r1 hm (mapGet_nil _)]; rfl
    have hg : mapGet (addRow re [] r1) r2.title = some r1.toBook := by
      rw [e1, ht, mapGet_cons, if_pos rfl]
    have hcg : mapGet r1.toBook.Chapters r2.chapter = some r1.toChapter := by
      rw [hc]; simp [inputRow.toBook, mapSet, mapGet_cons]
    rw [show [r1.toArr, r2.toArr] = [r1, r2].map inputRow.toArr from rfl, aggregate_toArr,
      List.foldl_cons, List.foldl_cons, List.foldl_nil,
      addRow_append re _ r2 _ _ hm2 hg hcg, e1, ht, hc]
    simp [mapSet, inputRow.toBook, inputRow.toChapter]
  · intro r1 r2 hm ht hc
    have hm2 : re r2.title = true := by rw [ht]; exact hm
    have e1 : addRow re [] r1 = [(r1.title, r1.toBook)] := by
      rw [addRow_new re [] r1 hm (mapGet_nil _)]; rfl
    have hg : mapGet (addRow re [] r1) r2.title = some r1.toBook := by
      rw [e1, ht, mapGet_cons, if_pos rfl]
    have hcg : mapGet r1.toBook.Chapters r2.chapter = none := by
      simp [inputRow.toBook, mapSet, mapGet_cons, mapGet_nil, hc]
    rw [show [r1.toArr, r2.toArr] = [r1, r2].map inputRow.toArr from rfl, aggregate_toArr,
      List.foldl_cons, List.foldl_cons, List.foldl_nil,
      addRow_newChapter re _ r2 _ hm2 hg hcg, e1, ht]
    have hc' : ¬ r1.chapter = r2.chapter := fun h => hc h.symm
    simp [mapSet, inputRow.toBook, hc']

/-- C4: for every input row sequence and every Book of the resulting Match set, stored under
the title `t`, the Book's Title, Authors and URL are the title, authors and book URL of the
first matching row with title `t`. Step by step: a row whose title already has a Book leaves
the Title, Authors and URL of that Book unchanged, whatever its own authors and book URL,
and adds one Note to it. -/
theorem aggregate_first_row_fields (re : String → Bool) (rows : List inputRow) :
    (∃ ms, aggregate re (rows.map inputRow.toArr) = some ms
      ∧ ∀ t b, (t, b) ∈ ms →
          ∃ r, rows.find? (fun r => re r.title && r.title == t) = some r
            ∧ b.Title = r.title ∧ b.Authors = r.authors ∧ b.URL = r.bookURL)
    ∧ (∀ (ms : GoMap book) (r : inputRow) (b : book), re r.title = true →
        mapGet ms r.title = some b →
        ∃ b1, mapGet (addRow re ms r) r.title = some b1
          ∧ b1.Title = b.Title ∧ b1.Authors = b.Authors ∧ b1.URL = b.URL
          ∧ totalNotes (addRow re ms r) = totalNotes ms + 1) := by
  refine ⟨⟨_, aggregate_toArr re rows, ?_⟩, ?_⟩
  · intro t b hb
    have nd1 : (mapKeys (rows.foldl (addRow re) [])).Nodup :=
      nodup_mapKeys_foldl re rows [] (by simp [mapKeys])
    have hb1 := (mapGet_of_mem _ nd1 t b).1 hb
    exact header_foldl_none re rows [] t b (mapGet_nil t) hb1
  · intro ms r b hm hg
    obtain ⟨b1, h1, e1, e2, e3⟩ := header_addRow re ms r r.title b hg
    refine ⟨b1, h1, e1, e2, e3, ?_⟩
    rw [totalNotes_addRow, if_pos hm]

/-! ## Properties of the renderer, the format adapter and the prompt -/

theorem utf8ByteSize_pos_iff (s : String) : s.utf8ByteSize > 0 ↔ s ≠ "" := by
  obtain ⟨l⟩ := s
  cases l with
  | nil => simp [String.utf8ByteSize, String.utf8ByteSize.go]
  | cons c cs =>
    have hc := Char.utf8Size_pos c
    constructor
    · intro _ h
      have := congrArg String.data h
      simp at this
    · intro _
      simp only [String.utf8ByteSize, String.utf8ByteSize.go]
      omega

theorem trimRightSpace_newline : trimRightSpace "\n" = "" := by decide

theorem trimRightSpace_blank_line : trimRightSpace "\n\n" = "" := by decide

theorem templateRange_perm {V : Type} (m : GoMap V) (h : (mapKeys m).Nodup) :
    (templateRange m).Perm (m.map Prod.snd) := by
  unfold templateRange sortKeys
  refine (List.Perm.filterMap (mapGet m) (List.perm_insertionSort _ (mapKeys m))).trans ?_
  have e : (mapKeys m).filterMap (mapGet m) = m.map Prod.snd := by
    unfold mapKeys
    rw [List.filterMap_map, ← List.filterMap_eq_map]
    apply List.filterMap_congr
    intro kv hkv
    obtain ⟨k, v⟩ := kv
    exact (mapGet_of_mem m h k v).1 hkv
  rw [e]

theorem replaceFrom_hash (new cs : List Char) :
    replaceFrom ['#'] new 0 cs = cs.flatMap (fun c => if c = '#' then new else [c]) := by
  induction cs with
  | nil => rfl
  | cons c cs ih =>
    by_cases h : c = '#'
    · subst h
      simp [replaceFrom, List.isPrefixOf, ih]
    · have h' : ¬ '#' = c := fun e => h e.symm
      simp [replaceFrom, List.isPrefixOf, ih, h, h']

theorem stringsReplaceAll_hash (s : String) : stringsReplaceAll s "#" "\\#" = escapeHash s := by
  unfold stringsReplaceAll escapeHash
  have h1 : ("#" : String).data = ['#'] := rfl
  have h2 : ("\\#" : String).data = ['\\', '#'] := rfl
  rw [h1, h2, if_neg (by simp), replaceFrom_hash]

theorem hash_after_backslash (cs : List Char) (i : Nat)
    (h : (cs.flatMap (fun c => if c = '#' then ['\\', '#'] else [c]))[i]? = some '#') :
    ∃ j, i = j + 1
      ∧ (cs.flatMap (fun c => if c = '#' then ['\\', '#'] else [c]))[j]? = some '\\' := by
  induction cs generalizing i with
  | nil => simp at h
  | cons c cs ih =>
    by_cases hc : c = '#'
    · subst hc
      simp only [List.flatMap_cons, if_true, List.cons_append, List.nil_append] at h ⊢
      match i, h with
      | 0, h => simp at h
      | 1, _ => exact ⟨0, rfl, rfl⟩
      | i + 2, h =>
        simp only [List.getElem?_cons_succ] at h
        obtain ⟨j, hj, hj2⟩ := ih i h
        refine ⟨j + 2, by omega, ?_⟩
        simpa only [List.getElem?_cons_succ] using hj2
    · simp only [List.flatMap_cons, if_neg hc, List.cons_append, List.nil_append] at h ⊢
      match i, h with
      | 0, h =>
        simp only [List.getElem?_cons_zero, Option.some.injEq] at h
        exact absurd h hc
      | i + 1, h =>
        simp only [List.getElem?_cons_succ] at h
        obtain ⟨j, hj, hj2⟩ := ih i h
        refine ⟨j + 1, by omega, ?_⟩
        simpa only [List.getElem?_cons_succ] using hj2

/-- C6: the format adapter escapes every hash sign and touches nothing else. For every Book,
`mkObsidian` keeps Title, Authors and URL, keeps the Chapter keys and their order, and
turns every Chapter into the Chapter with the same Title and URL whose Notes are, in the
same number and order, the Notes with the same Personal and URL and with the Highlight in
which every hash sign is replaced by a backslash and the hash sign. In the escaped text
every hash sign stands right after a backslash, and the hash signs are as many as before. -/
theorem mkObsidian_escapes_only_highlights (b : book) :
    b.mkObsidian.Title = b.Title ∧ b.mkObsidian.Authors = b.Authors
    ∧ b.mkObsidian.URL = b.URL
    ∧ mapKeys b.mkObsidian.Chapters = mapKeys b.Chapters
    ∧ b.mkObsidian.Chapters
        = b.Chapters.map (fun kc =>
            (kc.1, ⟨kc.2.Title, kc.2.URL,
              kc.2.Notes.map (fun n => ⟨escapeHash n.Highlight, n.Personal, n.URL⟩)⟩))
    ∧ (∀ k, mapGet b.mkObsidian.Chapters k
        = (mapGet b.Chapters k).map (fun c =>
            ⟨c.Title, c.URL, c.Notes.map (fun n => ⟨escapeHash n.Highlight, n.Personal, n.URL⟩)⟩))
    ∧ (∀ (s : String) (i : Nat), (escapeHash s).data[i]? = some '#' →
        ∃ j, i = j + 1 ∧ (escapeHash s).data[j]? = some '\\')
    ∧ (∀ s : String, (escapeHash s).data.count '#' = s.data.count '#') := by
  have hch : b.mkObsidian.Chapters
      = b.Chapters.map (fun kc =>
          (kc.1, ⟨kc.2.Title, kc.2.URL,
            kc.2.Notes.map (fun n => ⟨escapeHash n.Highlight, n.Personal, n.URL⟩)⟩)) := by
    simp only [book.mkObsidian, stringsReplaceAll_hash]
  refine ⟨rfl, rfl, rfl, ?_, hch, ?_, ?_, ?_⟩
  · rw [hch]
    simp [mapKeys, Function.comp_def]
  · intro k
    rw [hch]
    generalize b.Chapters = m
    induction m with
    | nil => simp [mapGet_nil]
    | cons kv m ih =>
      obtain ⟨k0, v0⟩ := kv
      simp only [List.map_cons, mapGet_cons, ih]
      split <;> simp
  · intro s i h
    exact hash_after_backslash s.data i h
  · intro s
    unfold escapeHash
    generalize s.data = cs
    induction cs with
    | nil => simp
    | cons c cs ih =>
      simp only [] at ih
      by_cases hc : c = '#'
      · subst hc
        simp [List.count_cons, ih]
      · simp [List.count_cons, hc, ih]

/-! ## Order of the chapters in the output -/

theorem sortKeys_perm (ks : List String) : (sortKeys ks).Perm ks :=
  List.perm_insertionSort _ ks

theorem sortKeys_sorted (ks : List String) :
    (sortKeys ks).Pairwise (fun a b : String => a.data ≤ b.data) := by
  haveI : IsTotal String (fun a b : String => a.data ≤ b.data) :=
    ⟨fun a b => le_total a.data b.data⟩
  haveI : IsTrans String (fun a b : String => a.data ≤ b.data) :=
    ⟨fun _ _ _ h1 h2 => le_trans h1 h2⟩
  exact List.sorted_insertionSort (fun a b : String => a.data ≤ b.data) ks

theorem sortKeys_strict (ks : List String) (h : ks.Nodup) :
    (sortKeys ks).Pairwise (fun a b : String => a.data < b.data) := by
  have h1 := sortKeys_sorted ks
  have h2 : (sortKeys ks).Pairwise (fun a b : String => a ≠ b) :=
    ((sortKeys_perm ks).nodup_iff).2 h
  refine (h1.and h2).imp ?_
  intro a b hab
  have : a.data ≠ b.data := fun e => hab.2 (String.ext e)
  exact lt_of_le_of_ne hab.1 this

theorem sortKeys_eq_of_perm (ks1 ks2 : List String) (h : ks1.Perm ks2) :
    sortKeys ks1 = sortKeys ks2 := by
  haveI : IsAntisymm String (fun a b : String => a.data ≤ b.data) :=
    ⟨fun _ _ h1 h2 => String.ext (le_antisymm h1 h2)⟩
  exact List.eq_of_perm_of_sorted
    (((sortKeys_perm ks1).trans h).trans (sortKeys_perm ks2).symm)
    (sortKeys_sorted ks1) (sortKeys_sorted ks2)

theorem filterMap_mapGet_titles (m : GoMap chapter) (ks : List String)
    (hk : ∀ k ∈ ks, k ∈ mapKeys m)
    (ht : ∀ k ch, mapGet m k = some ch → ch.Title = k) :
    (ks.filterMap (mapGet m)).map chapter.Title = ks := by
  induction ks with
  | nil => rfl
  | cons k ks ih =>
    obtain ⟨ch, hch⟩ := (mem_mapKeys_iff_isSome m k).1 (hk k (List.mem_cons_self k ks))
    rw [List.filterMap_cons_some hch, List.map_cons, ht k ch hch,
      ih (fun k1 h1 => hk k1 (List.mem_cons_of_mem k h1))]

theorem templateRange_titles (m : GoMap chapter)
    (ht : ∀ k ch, mapGet m k = some ch → ch.Title = k) :
    (templateRange m).map chapter.Title = sortKeys (mapKeys m) :=
  filterMap_mapGet_titles m (sortKeys (mapKeys m))
    (fun _ hk => (sortKeys_perm (mapKeys m)).mem_iff.1 hk) ht

theorem mem_templateRange {V : Type} (m : GoMap V) (v : V) :
    v ∈ templateRange m ↔ ∃ k, mapGet m k = some v := by
  unfold templateRange
  rw [List.mem_filterMap]
  constructor
  · rintro ⟨k, _, hk⟩
    exact ⟨k, hk⟩
  · rintro ⟨k, hk⟩
    refine ⟨k, ?_, hk⟩
    exact (sortKeys_perm (mapKeys m)).mem_iff.2 ((mem_mapKeys_iff_isSome m k).2 ⟨v, hk⟩)

theorem chapterTitle_addRow (re : String → Bool) (ms : GoMap book) (r : inputRow)
    (h : ∀ t c ch, chapterOf ms t c = some ch → ch.Title = c) :
    ∀ t c ch, chapterOf (addRow re ms r) t c = some ch → ch.Title = c := by
  intro t c ch hch
  by_cases ht : re r.title = true ∧ r.title = t
  · obtain ⟨hm, ht⟩ := ht
    subst ht
    unfold chapterOf at hch
    cases hg : mapGet ms r.title with
    | none =>
      rw [addRow_new re ms r hm hg, mapGet_mapSet_same] at hch
      simp only [inputRow.toBook, mapGet_mapSet, mapGet_nil] at hch
      by_cases hcc : c = r.chapter
      · rw [if_pos hcc] at hch
        cases hch
        exact hcc.symm
      · rw [if_neg hcc] at hch
        cases hch
    | some b =>
      have hb : ∀ c ch, mapGet b.Chapters c = some ch → ch.Title = c := by
        intro c ch e
        apply h r.title c ch
        simp only [chapterOf, hg, e]
      cases hc : mapGet b.Chapters r.chapter with
      | none =>
        rw [addRow_newChapter re ms r b hm hg hc, mapGet_mapSet_same] at hch
        simp only [mapGet_mapSet] at hch
        by_cases hcc : c = r.chapter
        · rw [if_pos hcc] at hch
          cases hch
          exact hcc.symm
        · rw [if_neg hcc] at hch
          exact hb c ch hch
      | some ch0 =>
        rw [addRow_append re ms r b ch0 hm hg hc, mapGet_mapSet_same] at hch
        simp only [mapGet_mapSet] at hch
        by_cases hcc : c = r.chapter
        · rw [if_pos hcc] at hch
          cases hch
          rw [hcc]
          exact hb r.chapter ch0 hc
        · rw [if_neg hcc] at hch
          exact hb c ch hch
  · rw [chapterOf, mapGet_addRow_other re ms r t ht, ← chapterOf] at hch
    exact h t c ch hch

theorem chapterTitle_foldl (re : String → Bool) (rows : List inputRow) (ms : GoMap book)
    (h : ∀ t c ch, chapterOf ms t c = some ch → ch.Title = c) :
    ∀ t c ch, chapterOf (rows.foldl (addRow re) ms) t c = some ch → ch.Title = c := by
  induction rows generalizing ms with
  | nil => exact h
  | cons r rows ih => exact ih _ (chapterTitle_addRow re ms r h)

/-- What the aggregation loop establishes of every Book `b` stored under the title `t`: the
template visits its Chapters by strictly ascending title, the titles are the chapter
titles of the matching rows of `t`, and every visited Chapter holds the Notes of its rows
in input order. -/
theorem templateRange_of_aggregate (re : String → Bool) (rows : List inputRow) (t : String)
    (b : book) (hb : (t, b) ∈ rows.foldl (addRow re) []) :
    ((templateRange b.Chapters).map chapter.Title).Pairwise
        (fun a b : String => a.data < b.data)
    ∧ (∀ c, c ∈ (templateRange b.Chapters).map chapter.Title
        ↔ ∃ r ∈ rows, re r.title = true ∧ r.title = t ∧ r.chapter = c)
    ∧ (∀ ch ∈ templateRange b.Chapters,
        ch.Notes
          = (rows.filter (fun r => re r.title && r.title == t && r.chapter == ch.Title)).map
              inputRow.toNote) := by
  have nd1 : (mapKeys (rows.foldl (addRow re) [])).Nodup :=
    nodup_mapKeys_foldl re rows [] (by simp [mapKeys])
  have hb1 := (mapGet_of_mem _ nd1 t b).1 hb
  have nd2 := nodup_chapters_foldl re rows [] (by simp [mapGet_nil]) t b hb1
  have htitle : ∀ k ch, mapGet b.Chapters k = some ch → ch.Title = k := by
    intro k ch e
    apply chapterTitle_foldl re rows [] (by simp [chapterOf, mapGet_nil]) t k ch
    simp only [chapterOf, hb1, e]
  rw [templateRange_titles b.Chapters htitle]
  refine ⟨sortKeys_strict _ nd2, ?_, ?_⟩
  · intro c
    rw [(sortKeys_perm _).mem_iff]
    have h := chapterOf_foldl re rows [] t c
    simp only [chapterOf, mapGet_nil, Option.isSome_none, Bool.false_or, hb1] at h
    rw [mem_mapKeys_iff_isSome, ← Option.isSome_iff_exists, h, List.any_eq_true]
    simp only [Bool.and_eq_true, beq_iff_eq, and_assoc]
  · intro ch hch
    obtain ⟨k, hk⟩ := (mem_templateRange b.Chapters ch).1 hch
    have hn := notesOf_foldl re rows [] t k
    simp only [notesOf, mapGet_nil, List.nil_append, hb1, hk] at hn
    rw [htitle k ch hk]
    exact hn

/-- C8, as the claim states it, fails: two rows of one book with the chapters `Zeta` then
`Alpha`. The Chapters mapping holds `Zeta` first, and the rendered output has the
section of `Alpha` before the section of `Zeta`. -/
theorem chapters_not_rendered_in_first_seen_order :
    (aggregate (fun _ => true)
        [["T", "A", "Zeta", "d", "bu", "zu", "hz", "first", ""],
          ["T", "A", "Alpha", "d", "bu", "au", "ha", "second", ""]]).map
      (fun ms => ms.map (fun kb => (mapKeys kb.2.Chapters, render kb.2)))
    = some [(["Zeta", "Alpha"],
        "# T\n- Authors: A\n- URL: bu\n\n## Alpha\n- URL: au\n\n\"second\" ([link](ha))\n\n"
          ++ "\n\n## Zeta\n- URL: zu\n\n\"first\" ([link](hz))\n\n")] := by
  decide

/-- C9: rendering is deterministic and pure. The output is a function of the Book value
alone: two Books with the same Title, Authors and URL whose Chapters mappings hold the
same Chapter under every key render to the same text, however the entries of the mappings
are laid out or visited by the run time; so rendering an unmodified Book twice gives
byte-identical output. -/
theorem render_deterministic (b1 b2 : book) (hT : b1.Title = b2.Title)
    (hA : b1.Authors = b2.Authors) (hU : b1.URL = b2.URL)
    (nd1 : (mapKeys b1.Chapters).Nodup) (nd2 : (mapKeys b2.Chapters).Nodup)
    (hC : ∀ k, mapGet b1.Chapters k = mapGet b2.Chapters k) :
    render b1 = render b2 := by
  have hperm : (mapKeys b1.Chapters).Perm (mapKeys b2.Chapters) := by
    rw [List.perm_ext_iff_of_nodup nd1 nd2]
    intro k
    rw [mem_mapKeys_iff_isSome, mem_mapKeys_iff_isSome, hC k]
  have hget : mapGet b1.Chapters = mapGet b2.Chapters := funext hC
  unfold render templateRange
  rw [hT, hA, hU, sortKeys_eq_of_perm _ _ hperm, hget]

/-- C9, witness: a Book with two Chapters stored in two different orders. -/
theorem render_deterministic_witness :
    render ⟨"T", "A", "U",
        [("Zeta", ⟨"Zeta", "zu", [⟨"first", "", "hz"⟩]⟩),
          ("Alpha", ⟨"Alpha", "au", [⟨"second", "mine", "ha"⟩]⟩)]⟩
      = render ⟨"T", "A", "U",
        [("Alpha", ⟨"Alpha", "au", [⟨"second", "mine", "ha"⟩]⟩),
          ("Zeta", ⟨"Zeta", "zu", [⟨"first", "", "hz"⟩]⟩)]⟩ :=
  render_deterministic _ _ rfl rfl rfl (by decide) (by decide) (by
    intro k
    by_cases h1 : k = "Zeta"
    · have h2 : ¬ k = "Alpha" := by rw [h1]; decide
      simp only [mapGet_cons, mapGet_nil, if_pos h1, if_neg h2]
    · by_cases h2 : k = "Alpha"
      · simp only [mapGet_cons, mapGet_nil, if_neg h1, if_pos h2]
      · simp only [mapGet_cons, mapGet_nil, if_neg h1, if_neg h2])

/-! ## The row parser and the notes derived from a row -/

theorem replaceFrom_newline (cs : List Char) :
    replaceFrom ['\n'] [] 0 cs = cs.filter (fun c => c ≠ '\n') := by
  induction cs with
  | nil => rfl
  | cons c cs ih =>
    by_cases h : c = '\n'
    · subst h
      simp [replaceFrom, List.isPrefixOf, ih]
    · have h' : ¬ '\n' = c := fun e => h e.symm
      simp [replaceFrom, List.isPrefixOf, ih, h, h']

theorem stringsReplaceAll_newline (s : String) :
    stringsReplaceAll s "\n" "" = removeNewlines s := by
  unfold stringsReplaceAll removeNewlines
  have h1 : ("\n" : String).data = ['\n'] := rfl
  have h2 : ("" : String).data = [] := rfl
  rw [h1, h2, if_neg (by simp), replaceFrom_newline]

theorem newline_not_mem_removeNewlines (s : String) : '\n' ∉ (removeNewlines s).data := by
  simp [removeNewlines]

theorem removeNewlines_of_not_mem (s : String) (h : '\n' ∉ s.data) : removeNewlines s = s := by
  unfold removeNewlines
  have : s.data.filter (fun c => c ≠ '\n') = s.data := by
    rw [List.filter_eq_self]
    intro c hc
    have : c ≠ '\n' := fun e => h (e ▸ hc)
    simpa using this
  rw [this]

theorem notes_of_aggregate (re : String → Bool) (rows : List inputRow) (t : String) (b : book)
    (c : String) (ch : chapter) (hb : (t, b) ∈ rows.foldl (addRow re) [])
    (hc : (c, ch) ∈ b.Chapters) :
    ch.Notes
      = (rows.filter (fun r => re r.title && r.title == t && r.chapter == c)).map
          inputRow.toNote := by
  have nd1 : (mapKeys (rows.foldl (addRow re) [])).Nodup :=
    nodup_mapKeys_foldl re rows [] (by simp [mapKeys])
  have hb1 := (mapGet_of_mem _ nd1 t b).1 hb
  have nd2 := nodup_chapters_foldl re rows [] (by simp [mapGet_nil]) t b hb1
  have hc1 := (mapGet_of_mem _ nd2 c ch).1 hc
  have hn := notesOf_foldl re rows [] t c
  simp only [notesOf, mapGet_nil, List.nil_append, hb1, hc1] at hn
  exact hn

/-- C12: for every row, the Note derived from it has as Highlight the row's highlight text
with every newline character removed and every other character kept in order, as Personal
the row's personal note text treated the same way, and as URL the row's highlight URL
unchanged. A text without newline is kept as it is. Consequently neither the Highlight nor
the Personal of any Note of any Chapter of any Book of a Match set contains a newline. -/
theorem toNote_strips_newlines (r : inputRow) :
    r.toNote.Highlight = removeNewlines r.highlight
    ∧ r.toNote.Personal = removeNewlines r.note
    ∧ r.toNote.URL = r.highlightURL
    ∧ '\n' ∉ r.toNote.Highlight.data
    ∧ '\n' ∉ r.toNote.Personal.data
    ∧ ('\n' ∉ r.highlight.data → r.toNote.Highlight = r.highlight)
    ∧ ('\n' ∉ r.note.data → r.toNote.Personal = r.note)
    ∧ (∀ (re : String → Bool) (rows : List inputRow),
        ∃ ms, aggregate re (rows.map inputRow.toArr) = some ms
          ∧ ∀ t b c ch n, (t, b) ∈ ms → (c, ch) ∈ b.Chapters → n ∈ ch.Notes →
              '\n' ∉ n.Highlight.data ∧ '\n' ∉ n.Personal.data) := by
  have hH : ∀ q : inputRow, q.toNote.Highlight = removeNewlines q.highlight :=
    fun q => stringsReplaceAll_newline q.highlight
  have hP : ∀ q : inputRow, q.toNote.Personal = removeNewlines q.note :=
    fun q => stringsReplaceAll_newline q.note
  refine ⟨hH r, hP r, rfl, ?_, ?_, ?_, ?_, ?_⟩
  · rw [hH]; exact newline_not_mem_removeNewlines _
  · rw [hP]; exact newline_not_mem_removeNewlines _
  · intro h; rw [hH, removeNewlines_of_not_mem _ h]
  · intro h; rw [hP, removeNewlines_of_not_mem _ h]
  · intro re rows
    refine ⟨_, aggregate_toArr re rows, ?_⟩
    intro t b c ch n hb hc hn
    rw [notes_of_aggregate re rows t b c ch hb hc, List.mem_map] at hn
    obtain ⟨q, _, hq⟩ := hn
    subst hq
    rw [hH, hP]
    exact ⟨newline_not_mem_removeNewlines _, newline_not_mem_removeNewlines _⟩

/-- C16: the row parser. For every record with exactly 9 string fields, `arr2inputRow`
succeeds (no index is out of range) and the row has field 0 as title, 1 as authors, 2 as
chapter, 3 as date, 4 as book URL, 5 as chapter URL, 6 as highlight URL, 7 as highlight and
8 as note, each field unaltered; so the record is recovered from the row, and empty
strings are accepted like any other. -/
theorem arr2inputRow_positional (rec : List String) (h : rec.length = 9) :
    ∃ row, arr2inputRow rec = some row
      ∧ rec[0]? = some row.title ∧ rec[1]? = some row.authors ∧ rec[2]? = some row.chapter
      ∧ rec[3]? = some row.date ∧ rec[4]? = some row.bookURL
      ∧ rec[5]? = some row.chapterURL ∧ rec[6]? = some row.highlightURL
      ∧ rec[7]? = some row.highlight ∧ rec[8]? = some row.note
      ∧ rec = [row.title, row.authors, row.chapter, row.date, row.bookURL, row.chapterURL,
          row.highlightURL, row.highlight, row.note] := by
  match rec, h with
  | [a0, a1, a2, a3, a4, a5, a6, a7, a8], _ =>
    exact ⟨⟨a0, a1, a2, a3, a4, a5, a6, a7, a8⟩, rfl, rfl, rfl, rfl, rfl, rfl, rfl, rfl, rfl,
      rfl, rfl⟩

/-- C16, witness: a record of 9 fields, some of them empty. -/
theorem arr2inputRow_positional_witness :
    ∃ row, arr2inputRow ["Go Programming", "", "Intro", "2021-01-01", "bu", "", "hu", "H1", ""]
        = some row
      ∧ row.title = "Go Programming" ∧ row.authors = "" ∧ row.note = "" := by
  obtain ⟨row, h, h0, h1, _, _, _, _, _, _, h8, _⟩ :=
    arr2inputRow_positional
      ["Go Programming", "", "Intro", "2021-01-01", "bu", "", "hu", "H1", ""] rfl
  refine ⟨row, h, ?_, ?_, ?_⟩
  · exact (Option.some.inj h0).symm
  · exact (Option.some.inj h1).symm
  · exact (Option.some.inj h8).symm

/-! ## The escaping of the format adapter as a code -/

theorem escape_head_ne_hash (cs rest : List Char) :
    cs.flatMap (fun c => if c = '#' then ['\\', '#'] else [c]) ≠ '#' :: rest := by
  cases cs with
  | nil => simp
  | cons c cs =>
    by_cases hc : c = '#'
    · subst hc
      simp
    · simp only [List.flatMap_cons, if_neg hc, List.cons_append, List.nil_append]
      intro h
      exact hc (List.cons.inj h).1

theorem replaceFrom_unescape (cs : List Char) :
    replaceFrom ['\\', '#'] ['#'] 0 (cs.flatMap (fun c => if c = '#' then ['\\', '#'] else [c]))
      = cs := by
  induction cs with
  | nil => rfl
  | cons c cs ih =>
    by_cases hc : c = '#'
    · subst hc
      simpa [replaceFrom, List.isPrefixOf] using ih
    · simp only [List.flatMap_cons, if_neg hc, List.cons_append, List.nil_append]
      have hp : List.isPrefixOf ['\\', '#']
          (c :: cs.flatMap (fun c => if c = '#' then ['\\', '#'] else [c])) = false := by
        cases hrest : cs.flatMap (fun c => if c = '#' then ['\\', '#'] else [c]) with
        | nil => simp [List.isPrefixOf]
        | cons d ds =>
          have hd : ¬ '#' = d := by
            intro e
            subst e
            exact escape_head_ne_hash cs ds hrest
          simp [List.isPrefixOf, hd]
      simp only [replaceFrom, hp, ih]
      simp

theorem escape_length (cs : List Char) :
    (cs.flatMap (fun c => if c = '#' then ['\\', '#'] else [c])).length
      = cs.length + cs.count '#' := by
  induction cs with
  | nil => rfl
  | cons c cs ih =>
    by_cases hc : c = '#'
    · subst hc
      simp [ih]
      omega
    · simp [hc, ih, List.count_cons]
      omega

theorem utf8ByteSize_go_cons (c : Char) (cs : List Char) :
    String.utf8ByteSize.go (c :: cs) = String.utf8ByteSize.go cs + c.utf8Size := rfl

theorem escape_byteSize (cs : List Char) :
    String.utf8ByteSize.go (cs.flatMap (fun c => if c = '#' then ['\\', '#'] else [c]))
      = String.utf8ByteSize.go cs + cs.count '#' := by
  induction cs with
  | nil => rfl
  | cons c cs ih =>
    by_cases hc : c = '#'
    · subst hc
      have e : ('#' :: cs).flatMap (fun c => if c = '#' then ['\\', '#'] else [c])
          = '\\' :: '#' :: cs.flatMap (fun c => if c = '#' then ['\\', '#'] else [c]) := by
        rw [List.flatMap_cons, if_pos rfl]
        rfl
      have h1 : Char.utf8Size '\\' = 1 := by decide
      rw [e, utf8ByteSize_go_cons, utf8ByteSize_go_cons, utf8ByteSize_go_cons, ih,
        List.count_cons_self, h1]
      omega
    · have e : (c :: cs).flatMap (fun c => if c = '#' then ['\\', '#'] else [c])
          = c :: cs.flatMap (fun c => if c = '#' then ['\\', '#'] else [c]) := by
        rw [List.flatMap_cons, if_neg hc]
        rfl
      have hcount : (c :: cs).count '#' = cs.count '#' := by
        simp [List.count_cons, hc]
      rw [e, utf8ByteSize_go_cons, utf8ByteSize_go_cons, ih, hcount]
      omega

theorem escape_count (cs : List Char) :
    (cs.flatMap (fun c => if c = '#' then ['\\', '#'] else [c])).count '#' = cs.count '#' := by
  induction cs with
  | nil => rfl
  | cons c cs ih =>
    by_cases hc : c = '#'
    · subst hc
      simp [List.count_cons, ih]
    · simp [List.count_cons, hc, ih]

theorem stringsReplaceAll_unescape (s : String) :
    stringsReplaceAll (escapeHash s) "\\#" "#" = s := by
  unfold stringsReplaceAll escapeHash
  have h1 : ("\\#" : String).data = ['\\', '#'] := rfl
  have h2 : ("#" : String).data = ['#'] := rfl
  rw [h1, h2, if_neg (by simp), replaceFrom_unescape]

theorem escapeHash_injective (s1 s2 : String) (h : escapeHash s1 = escapeHash s2) : s1 = s2 := by
  rw [← stringsReplaceAll_unescape s1, ← stringsReplaceAll_unescape s2, h]

theorem escapeHash_eq_self_iff (s : String) : escapeHash s = s ↔ '#' ∉ s.data := by
  constructor
  · intro h
    have hl := escape_length s.data
    have h2 : (escapeHash s).data.length = s.data.length := by rw [h]
    simp only [escapeHash] at h2
    rw [hl] at h2
    have h3 : s.data.count '#' = 0 := by omega
    exact List.count_eq_zero.1 h3
  · intro h
    apply String.ext
    simp only [escapeHash]
    generalize s.data = cs at h
    induction cs with
    | nil => rfl
    | cons c cs ih =>
      have hc : c ≠ '#' := fun e => h (e ▸ List.mem_cons_self c cs)
      have hcs : '#' ∉ cs := fun e => h (List.mem_cons_of_mem c e)
      simp only [List.flatMap_cons, if_neg hc, List.cons_append, List.nil_append, ih hcs]

theorem escapeHash_twice_iff (s : String) :
    escapeHash (escapeHash s) = escapeHash s ↔ '#' ∉ s.data := by
  rw [← escapeHash_eq_self_iff]
  constructor
  · intro h
    exact escapeHash_injective _ _ h
  · intro h
    rw [h, h]

/-- C19: the escaping of the format adapter is lossless. For every text, replacing every
occurrence of backslash-hash by a hash sign in the escaped text gives the text back;
hence two different texts never escape to the same text; and the escaped text is longer
than the text by exactly the number of its hash signs, in characters and in bytes. -/
theorem escaping_lossless (s : String) :
    stringsReplaceAll (stringsReplaceAll s "#" "\\#") "\\#" "#" = s
    ∧ (∀ s2 : String, stringsReplaceAll s "#" "\\#" = stringsReplaceAll s2 "#" "\\#" → s = s2)
    ∧ (stringsReplaceAll s "#" "\\#").length = s.length + s.data.count '#'
    ∧ (stringsReplaceAll s "#" "\\#").utf8ByteSize = s.utf8ByteSize + s.data.count '#' := by
  refine ⟨?_, ?_, ?_, ?_⟩
  · rw [stringsReplaceAll_hash, stringsReplaceAll_unescape]
  · intro s2 h
    rw [stringsReplaceAll_hash, stringsReplaceAll_hash] at h
    exact escapeHash_injective s s2 h
  · rw [stringsReplaceAll_hash]
    exact escape_length s.data
  · rw [stringsReplaceAll_hash]
    exact escape_byteSize s.data

/-- C13: the format adapter is idempotent only on input without hash sign. For every Book,
applying `mkObsidian` twice gives the same Book as applying it once if and only if no
Highlight of any Note of any Chapter contains a hash sign. On escaped text it escapes
again: the Highlight `a#b` becomes `a\#b` after one application and `a\\#b` after two. -/
theorem mkObsidian_idempotent_iff_no_hash (b : book) :
    (b.mkObsidian.mkObsidian = b.mkObsidian
      ↔ ∀ kc ∈ b.Chapters, ∀ n ∈ kc.2.Notes, '#' ∉ n.Highlight.data)
    ∧ stringsReplaceAll "a#b" "#" "\\#" = "a\\#b"
    ∧ stringsReplaceAll "a\\#b" "#" "\\#" = "a\\\\#b"
    ∧ (book.mkObsidian ⟨"T", "A", "U", [("C", ⟨"C", "cu", [⟨"a#b", "", "hu"⟩]⟩)]⟩)
        = ⟨"T", "A", "U", [("C", ⟨"C", "cu", [⟨"a\\#b", "", "hu"⟩]⟩)]⟩
    ∧ (book.mkObsidian (book.mkObsidian
          ⟨"T", "A", "U", [("C", ⟨"C", "cu", [⟨"a#b", "", "hu"⟩]⟩)]⟩))
        = ⟨"T", "A", "U", [("C", ⟨"C", "cu", [⟨"a\\\\#b", "", "hu"⟩]⟩)]⟩ := by
  refine ⟨?_, by decide, by decide, by decide, by decide⟩
  have hnote : ∀ n : note,
      (({ Highlight := escapeHash (escapeHash n.Highlight), Personal := n.Personal,
          URL := n.URL } : note)
        = { Highlight := escapeHash n.Highlight, Personal := n.Personal, URL := n.URL })
      ↔ '#' ∉ n.Highlight.data := by
    intro n
    rw [← escapeHash_twice_iff]
    constructor
    · intro h
      exact (note.mk.injEq _ _ _ _ _ _ ▸ h).1
    · intro h
      rw [h]
  simp only [book.mkObsidian, stringsReplaceAll_hash, book.mk.injEq, true_and, List.map_map,
    List.map_inj_left, Function.comp_apply, Prod.mk.injEq, chapter.mk.injEq, hnote]

/-! ## Well-formedness of the Match set -/

theorem mem_mapSet {V : Type} (m : GoMap V) (k : String) (v : V) (x : String × V)
    (h : x ∈ mapSet m k v) : x ∈ m ∨ x = (k, v) := by
  induction m with
  | nil =>
    simp only [mapSet, List.mem_singleton] at h
    exact Or.inr h
  | cons kv m ih =>
    obtain ⟨k0, v0⟩ := kv
    by_cases h0 : k0 = k
    · simp only [mapSet, if_pos h0, List.mem_cons] at h
      rcases h with h | h
      · exact Or.inr h
      · exact Or.inl (List.mem_cons_of_mem _ h)
    · simp only [mapSet, if_neg h0, List.mem_cons] at h
      rcases h with h | h
      · exact Or.inl (h ▸ List.mem_cons_self _ _)
      · rcases ih h with h1 | h1
        · exact Or.inl (List.mem_cons_of_mem _ h1)
        · exact Or.inr h1

theorem mapSet_ne_nil {V : Type} (m : GoMap V) (k : String) (v : V) : mapSet m k v ≠ [] := by
  cases m with
  | nil => simp [mapSet]
  | cons kv m =>
    obtain ⟨k0, v0⟩ := kv
    by_cases h0 : k0 = k <;> simp [mapSet, h0]

theorem mem_of_mapGet {V : Type} (m : GoMap V) (k : String) (v : V)
    (h : mapGet m k = some v) : (k, v) ∈ m := by
  induction m with
  | nil => simp [mapGet_nil] at h
  | cons kv m ih =>
    obtain ⟨k0, v0⟩ := kv
    rw [mapGet_cons] at h
    by_cases hk : k = k0
    · rw [if_pos hk] at h
      cases h
      rw [hk]
      exact List.mem_cons_self _ _
    · rw [if_neg hk] at h
      exact List.mem_cons_of_mem _ (ih h)

theorem wellFormed_iff (ms : GoMap book) :
    wellFormed ms = true
      ↔ ∀ t b, (t, b) ∈ ms →
          b.Title = t ∧ b.Chapters ≠ []
            ∧ ∀ c ch, (c, ch) ∈ b.Chapters → ch.Title = c ∧ ch.Notes ≠ [] := by
  simp only [wellFormed, List.all_eq_true, Bool.and_eq_true, beq_iff_eq, Bool.not_eq_true',
    List.isEmpty_eq_false, Prod.forall, and_assoc, ne_eq]

theorem wellFormed_addRow (re : String → Bool) (ms : GoMap book) (r : inputRow)
    (h : wellFormed ms = true) : wellFormed (addRow re ms r) = true := by
  rw [wellFormed_iff] at h ⊢
  by_cases hm : re r.title = true
  · have hnote : r.toChapter.Title = r.chapter ∧ r.toChapter.Notes ≠ [] := by
      simp [inputRow.toChapter]
    cases hg : mapGet ms r.title with
    | none =>
      rw [addRow_new re ms r hm hg]
      intro t b hb
      rcases mem_mapSet ms r.title r.toBook (t, b) hb with h1 | h1
      · exact h t b h1
      · cases h1
        refine ⟨rfl, mapSet_ne_nil _ _ _, ?_⟩
        intro c ch hc
        rcases mem_mapSet [] r.chapter r.toChapter (c, ch) hc with h2 | h2
        · cases h2
        · cases h2
          exact hnote
    | some b0 =>
      obtain ⟨hb0, _, hb0c⟩ := h r.title b0 (mem_of_mapGet ms r.title b0 hg)
      cases hc0 : mapGet b0.Chapters r.chapter with
      | none =>
        rw [addRow_newChapter re ms r b0 hm hg hc0]
        intro t b hb
        rcases mem_mapSet ms r.title _ (t, b) hb with h1 | h1
        · exact h t b h1
        · cases h1
          refine ⟨hb0, mapSet_ne_nil _ _ _, ?_⟩
          intro c ch hc
          rcases mem_mapSet b0.Chapters r.chapter r.toChapter (c, ch) hc with h2 | h2
          · exact hb0c c ch h2
          · cases h2
            exact hnote
      | some c0 =>
        obtain ⟨hc0t, _⟩ := hb0c r.chapter c0 (mem_of_mapGet b0.Chapters r.chapter c0 hc0)
        rw [addRow_append re ms r b0 c0 hm hg hc0]
        intro t b hb
        rcases mem_mapSet ms r.title _ (t, b) hb with h1 | h1
        · exact h t b h1
        · cases h1
          refine ⟨hb0, mapSet_ne_nil _ _ _, ?_⟩
          intro c ch hc
          rcases mem_mapSet b0.Chapters r.chapter _ (c, ch) hc with h2 | h2
          · exact hb0c c ch h2
          · cases h2
            exact ⟨hc0t, by simp⟩
  · rw [addRow_of_not_match re ms r (by simpa using hm)]
    exact h

theorem wellFormed_foldl (re : String → Bool) (rows : List inputRow) (ms : GoMap book)
    (h : wellFormed ms = true) : wellFormed (rows.foldl (addRow re) ms) = true := by
  induction rows generalizing ms with
  | nil => exact h
  | cons r rows ih => exact ih _ (wellFormed_addRow re ms r h)

/-- C18: the well-formedness invariant of the Match set. The empty Match set the loop starts
from is well-formed, every step of the aggregation loop keeps a well-formed Match set
well-formed, and so the Match set built from any input is well-formed: every key of the
Match set equals the Title of the Book stored under it, every Book has at least one
Chapter, every key of a Book's Chapters mapping equals the Title of the Chapter stored
under it, and every Chapter has at least one Note. -/
theorem aggregation_keeps_wellFormed (re : String → Bool) :
    wellFormed [] = true
    ∧ (∀ (ms : GoMap book) (r : inputRow), wellFormed ms = true →
        wellFormed (addRow re ms r) = true)
    ∧ (∀ rows : List inputRow,
        ∃ ms, aggregate re (rows.map inputRow.toArr) = some ms
          ∧ wellFormed ms = true
          ∧ ∀ t b, (t, b) ∈ ms →
              b.Title = t ∧ b.Chapters ≠ []
                ∧ ∀ c ch, (c, ch) ∈ b.Chapters → ch.Title = c ∧ ch.Notes ≠ []) := by
  refine ⟨rfl, wellFormed_addRow re, ?_⟩
  intro rows
  have h := wellFormed_foldl re rows [] rfl
  exact ⟨_, aggregate_toArr re rows, h, (wellFormed_iff _).1 h⟩

/-! ## The template visits the chapters by sorted key -/

theorem mapGet_eq_of_perm {V : Type} (m1 m2 : GoMap V) (hp : m1.Perm m2)
    (hnd : (mapKeys m2).Nodup) (k : String) : mapGet m1 k = mapGet m2 k := by
  have hnd1 : (mapKeys m1).Nodup := ((hp.map Prod.fst).nodup_iff).2 hnd
  cases h1 : mapGet m1 k with
  | some v =>
    have := (mapGet_of_mem m2 hnd k v).1 (hp.mem_iff.1 (mem_of_mapGet m1 k v h1))
    rw [this]
  | none =>
    cases h2 : mapGet m2 k with
    | none => rfl
    | some v =>
      have := (mapGet_of_mem m1 hnd1 k v).1 (hp.mem_iff.2 (mem_of_mapGet m2 k v h2))
      rw [h1] at this
      cases this

theorem templateRange_eq_of_perm {V : Type} (m1 m2 : GoMap V) (hp : m1.Perm m2)
    (hnd : (mapKeys m2).Nodup) : templateRange m1 = templateRange m2 := by
  unfold templateRange
  rw [sortKeys_eq_of_perm (mapKeys m1) (mapKeys m2) (hp.map Prod.fst),
    funext (mapGet_eq_of_perm m1 m2 hp hnd)]

theorem mapKeys_mkObsidian (b : book) : mapKeys b.mkObsidian.Chapters = mapKeys b.Chapters := by
  simp [book.mkObsidian, mapKeys, Function.comp_def]

theorem title_of_mem_mkObsidian (b : book)
    (h : ∀ k ch, (k, ch) ∈ b.Chapters → ch.Title = k) :
    ∀ k ch, (k, ch) ∈ b.mkObsidian.Chapters → ch.Title = k := by
  intro k ch hk
  simp only [book.mkObsidian, List.mem_map, Prod.mk.injEq] at hk
  obtain ⟨⟨k0, c0⟩, hmem, hk0, hc0⟩ := hk
  subst hk0
  subst hc0
  exact h k0 c0 hmem

/-! ## The run: malformed records, the confirmation gate, the two-row scenario -/

theorem readAll_of_malformed (table : List (List String))
    (h : ∃ rec ∈ table, rec.length ≠ 9) : readAll 9 table = none := by
  obtain ⟨rec, hrec, hlen⟩ := h
  unfold readAll
  rw [if_neg]
  intro hall
  rw [List.all_eq_true] at hall
  have := hall rec hrec
  simp only [beq_iff_eq] at this
  exact hlen this

/-- C14: malformed records abort the run before any output. For every input table that
contains a record whose field count is not exactly 9, reading the table fails and the run
ends with exit status 1, whatever the flags, the pattern and the input lines: nothing has
been aggregated, no prompt has been printed and no output file has been written. -/
theorem malformed_record_aborts (env : Env) (flags : Flags) (table : List (List String))
    (stdin : List (List String)) (h : ∃ rec ∈ table, rec.length ≠ 9) :
    readAll 9 table = none
    ∧ main env flags table stdin = ⟨1, [], []⟩
    ∧ (main env flags table stdin).status ≠ 0
    ∧ (main env flags table stdin).files = []
    ∧ (main env flags table stdin).stdout = [] := by
  have hr := readAll_of_malformed table h
  have hm : main env flags table stdin = ⟨1, [], []⟩ := by
    unfold main
    cases setup env flags with
    | none => rfl
    | some dir => simp only [hr]
  rw [hm]
  exact ⟨hr, rfl, by decide, rfl, rfl⟩

/-- C14, witness: a table whose second record has 8 fields. -/
theorem malformed_record_aborts_witness :
    main
        { nArg := 1
          getwd := some "."
          stat := fun _ => StatResult.isDir
          mkdirAllFails := fun _ => false
          openFails := false
          regexpCompile := fun _ => some (fun _ => true)
          pathJoin := fun d f => d ++ "/" ++ f
          createFails := fun _ => false
          quote := fun t => "\"" ++ t ++ "\""
          rangeOrder := fun ms => ms }
        { flagOutput := "out", flagTitle := "go", flagMultiAllow := false,
          flagObsidian := false }
        [["Book Title", "Authors", "Chapter Title", "Date of Highlight", "Book URL",
            "Chapter URL", "Highlight URL", "Highlight", "Personal Note"],
          ["Go Programming", "A", "Intro", "2021-01-01", "bu", "cu", "hu", "H1"]]
        [["y"]]
      = ⟨1, [], []⟩ :=
  (malformed_record_aborts _ _ _ _
    ⟨["Go Programming", "A", "Intro", "2021-01-01", "bu", "cu", "hu", "H1"],
      by simp, by decide⟩).2.1

theorem joinStr_data (l : List String) : (joinStr l).data = l.flatMap String.data := by
  induction l with
  | nil => rfl
  | cons x l ih => rw [joinStr, String.data_append, ih, List.flatMap_cons]

theorem renderNote_data (n : note) :
    (renderNote n).data
      = ("\n\"" ++ n.Highlight ++ "\" ([link](" ++ n.URL ++ "))\n"
          ++ (if n.Personal ≠ "" then "> " ++ n.Personal else "") ++ "\n").data := by
  unfold renderNote
  by_cases h : n.Personal = ""
  · have h1 : ¬ n.Personal.utf8ByteSize > 0 := by
      rw [utf8ByteSize_pos_iff]; exact not_not.2 h
    rw [if_neg h1, if_neg (not_not.2 h)]
  · have h1 : n.Personal.utf8ByteSize > 0 := (utf8ByteSize_pos_iff _).2 h
    rw [if_pos h1, if_pos h]

theorem renderChapter_data (c : chapter) :
    (renderChapter c).data
      = ("\n\n## " ++ c.Title ++ "\n- URL: " ++ c.URL ++ "\n").data
        ++ c.Notes.flatMap (fun n =>
            ("\n\"" ++ n.Highlight ++ "\" ([link](" ++ n.URL ++ "))\n"
              ++ (if n.Personal ≠ "" then "> " ++ n.Personal else "") ++ "\n").data) := by
  unfold renderChapter
  rw [trimRightSpace_newline, String.append_empty, String.data_append, joinStr_data,
    List.flatMap_map]
  congr 1
  exact List.flatMap_congr (fun n _ => renderNote_data n)

theorem render_data (b : book) :
    (render b).data
      = ("# " ++ b.Title ++ "\n- Authors: " ++ b.Authors ++ "\n- URL: " ++ b.URL).data
        ++ (templateRange b.Chapters).flatMap (fun c =>
            ("\n\n## " ++ c.Title ++ "\n- URL: " ++ c.URL ++ "\n").data
              ++ c.Notes.flatMap (fun n =>
                  ("\n\"" ++ n.Highlight ++ "\" ([link](" ++ n.URL ++ "))\n"
                    ++ (if n.Personal ≠ "" then "> " ++ n.Personal else "") ++ "\n").data)) := by
  unfold render
  rw [trimRightSpace_blank_line, String.append_empty, String.data_append, joinStr_data,
    List.flatMap_map]
  congr 1
  exact List.flatMap_congr (fun c _ => renderChapter_data c)

/-- C5: the renderer follows the fixed template. For every Book, the characters of the
output are those of the title line, the authors line and the URL line, followed, for each
Chapter in the order in which the template visits the Chapters mapping, by a blank line,
the chapter heading, the chapter URL line and, for each Note in Note sequence order, a
blank line, the quoted highlight with its link, and a line that holds `> ` and the
personal text if and only if the personal text is non-empty. Field values are inserted
verbatim. Every Chapter of a mapping with unique keys is visited exactly once. A Book with
two Chapters, one Note with and one without personal text, is rendered as shown. -/
theorem render_follows_template (b : book) :
    (render b).data
      = ("# " ++ b.Title ++ "\n- Authors: " ++ b.Authors ++ "\n- URL: " ++ b.URL).data
        ++ (templateRange b.Chapters).flatMap (fun c =>
            ("\n\n## " ++ c.Title ++ "\n- URL: " ++ c.URL ++ "\n").data
              ++ c.Notes.flatMap (fun n =>
                  ("\n\"" ++ n.Highlight ++ "\" ([link](" ++ n.URL ++ "))\n"
                    ++ (if n.Personal ≠ "" then "> " ++ n.Personal else "") ++ "\n").data))
    ∧ ((mapKeys b.Chapters).Nodup →
        (templateRange b.Chapters).Perm (b.Chapters.map Prod.snd))
    ∧ render ⟨"T", "A", "U",
          [("One", ⟨"One", "u1", [⟨"h1", "mine", "l1"⟩, ⟨"h2", "", "l2"⟩]⟩),
            ("Two", ⟨"Two", "u2", [⟨"h#3", "", "l3"⟩]⟩)]⟩
        = "# T\n- Authors: A\n- URL: U"
          ++ "\n\n## One\n- URL: u1\n"
          ++ "\n\"h1\" ([link](l1))\n> mine\n"
          ++ "\n\"h2\" ([link](l2))\n\n"
          ++ "\n\n## Two\n- URL: u2\n"
          ++ "\n\"h#3\" ([link](l3))\n\n"
    ∧ render ⟨"T", "A", "U", []⟩ = "# T\n- Authors: A\n- URL: U" :=
  ⟨render_data b, templateRange_perm b.Chapters, by decide, by decide⟩

/-- C8, amended: for every input row sequence and every Book of the Match set, the
characters of the rendered output are those of the three heading lines followed by the
sections of the Book's Chapters in strictly ascending byte-wise order of chapter title,
whatever the order in which the chapter titles were first seen; there is one section for
every chapter title of the matching rows of that book, and a section holds, after its
heading and URL line, the quoted lines of the Notes of its rows, in input order. -/
theorem render_chapters_ascending_notes_in_input_order (re : String → Bool)
    (rows : List inputRow) :
    ∃ ms, aggregate re (rows.map inputRow.toArr) = some ms
      ∧ ∀ t b, (t, b) ∈ ms →
          ∃ cs : List chapter,
            (render b).data
              = ("# " ++ b.Title ++ "\n- Authors: " ++ b.Authors ++ "\n- URL: " ++ b.URL).data
                ++ cs.flatMap (fun ch =>
                    ("\n\n## " ++ ch.Title ++ "\n- URL: " ++ ch.URL ++ "\n").data
                      ++ ((rows.filter
                            (fun r => re r.title && r.title == t && r.chapter == ch.Title)).map
                          inputRow.toNote).flatMap (fun n =>
                        ("\n\"" ++ n.Highlight ++ "\" ([link](" ++ n.URL ++ "))\n"
                          ++ (if n.Personal ≠ "" then "> " ++ n.Personal else "")
                          ++ "\n").data))
            ∧ (cs.map chapter.Title).Pairwise (fun a b : String => a.data < b.data)
            ∧ (∀ c, c ∈ cs.map chapter.Title
                ↔ ∃ r ∈ rows, re r.title = true ∧ r.title = t ∧ r.chapter = c) := by
  refine ⟨_, aggregate_toArr re rows, ?_⟩
  intro t b hb
  obtain ⟨h1, h2, h3⟩ := templateRange_of_aggregate re rows t b hb
  refine ⟨templateRange b.Chapters, ?_, h1, h2⟩
  rw [render_data]
  congr 1
  apply List.flatMap_congr
  intro ch hch
  rw [h3 ch hch]

/-- C17: in the rendered output of every Book whose Chapters mapping holds each key once
and each Chapter under its own title, the characters of the output are those of the three
heading lines followed by the sections (heading, URL line, quoted Notes) of its Chapters,
each Chapter once, in strictly ascending byte-wise order of chapter title: the template's
range over the mapping visits the keys in sorted order. The output is the same for every
other arrangement of the entries of the mapping, so it does not depend on the order in
which the chapters were first seen. Every Book the run renders is of this kind: the Books
of a Match set, adapted by `mkObsidian` or not. -/
theorem render_sections_sorted_by_title (b : book) (hnd : (mapKeys b.Chapters).Nodup)
    (htitle : ∀ k ch, (k, ch) ∈ b.Chapters → ch.Title = k) :
    (∃ cs : List chapter,
      (render b).data
        = ("# " ++ b.Title ++ "\n- Authors: " ++ b.Authors ++ "\n- URL: " ++ b.URL).data
          ++ cs.flatMap (fun c =>
              ("\n\n## " ++ c.Title ++ "\n- URL: " ++ c.URL ++ "\n").data
                ++ c.Notes.flatMap (fun n =>
                    ("\n\"" ++ n.Highlight ++ "\" ([link](" ++ n.URL ++ "))\n"
                      ++ (if n.Personal ≠ "" then "> " ++ n.Personal else "") ++ "\n").data))
      ∧ cs.Perm (b.Chapters.map Prod.snd)
      ∧ (cs.map chapter.Title).Pairwise (fun x y : String => x.data < y.data))
    ∧ (∀ m2 : GoMap chapter, m2.Perm b.Chapters →
        render ⟨b.Title, b.Authors, b.URL, m2⟩ = render b)
    ∧ (∀ (re : String → Bool) (rows : List inputRow),
        ∃ ms, aggregate re (rows.map inputRow.toArr) = some ms
          ∧ ∀ t b0, (t, b0) ∈ ms →
              (mapKeys b0.Chapters).Nodup
              ∧ (∀ k ch, (k, ch) ∈ b0.Chapters → ch.Title = k)
              ∧ (mapKeys b0.mkObsidian.Chapters).Nodup
              ∧ (∀ k ch, (k, ch) ∈ b0.mkObsidian.Chapters → ch.Title = k)) := by
  have ht : ∀ k ch, mapGet b.Chapters k = some ch → ch.Title = k :=
    fun k ch h => htitle k ch (mem_of_mapGet _ k ch h)
  have htitles := templateRange_titles b.Chapters ht
  refine ⟨⟨templateRange b.Chapters, render_data b, templateRange_perm b.Chapters hnd, ?_⟩,
    ?_, ?_⟩
  · rw [htitles]
    exact sortKeys_strict _ hnd
  · intro m2 hp
    unfold render
    rw [templateRange_eq_of_perm m2 b.Chapters hp hnd]
  · intro re rows
    refine ⟨_, aggregate_toArr re rows, ?_⟩
    intro t b0 hb0
    have nd1 : (mapKeys (rows.foldl (addRow re) [])).Nodup :=
      nodup_mapKeys_foldl re rows [] (by simp [mapKeys])
    have hb1 := (mapGet_of_mem _ nd1 t b0).1 hb0
    have nd2 := nodup_chapters_foldl re rows [] (by simp [mapGet_nil]) t b0 hb1
    have hwf := (wellFormed_iff _).1 (wellFormed_foldl re rows [] rfl) t b0 hb0
    have ht0 : ∀ k ch, (k, ch) ∈ b0.Chapters → ch.Title = k :=
      fun k ch h => (hwf.2.2 k ch h).1
    refine ⟨nd2, ht0, ?_, title_of_mem_mkObsidian b0 ht0⟩
    rw [mapKeys_mkObsidian]
    exact nd2

/-- C17, witness: a Book whose mapping holds the chapter `Zeta` before the chapter `Alpha`
is rendered like the Book that holds `Alpha` first, with the section of `Alpha` before the
section of `Zeta`. -/
theorem render_sections_sorted_by_title_witness :
    render ⟨"T", "A", "U",
        [("Zeta", ⟨"Zeta", "zu", [⟨"first", "", "hz"⟩]⟩),
          ("Alpha", ⟨"Alpha", "au", [⟨"second", "", "ha"⟩]⟩)]⟩
      = "# T\n- Authors: A\n- URL: U\n\n## Alpha\n- URL: au\n\n\"second\" ([link](ha))\n\n"
          ++ "\n\n## Zeta\n- URL: zu\n\n\"first\" ([link](hz))\n\n" :=
  ((render_sections_sorted_by_title
      ⟨"T", "A", "U",
        [("Alpha", ⟨"Alpha", "au", [⟨"second", "", "ha"⟩]⟩),
          ("Zeta", ⟨"Zeta", "zu", [⟨"first", "", "hz"⟩]⟩)]⟩
      (by decide)
      (by
        intro k ch h
        simp only [List.mem_cons, Prod.mk.injEq, List.mem_nil_iff, or_false] at h
        rcases h with ⟨h1, h2⟩ | ⟨h1, h2⟩
        · rw [h1, h2]
        · rw [h1, h2])).2.1
    [("Zeta", ⟨"Zeta", "zu", [⟨"first", "", "hz"⟩]⟩),
      ("Alpha", ⟨"Alpha", "au", [⟨"second", "", "ha"⟩]⟩)]
    (List.Perm.swap _ _ _)).trans (by decide)

/-! ## The decision of the confirmation prompt -/

theorem tooLong_iff (raw : String) :
    tooLong raw = true ↔ raw.utf8ByteSize ≥ maxScanTokenSize := by
  simp [tooLong, maxScanTokenSize]

theorem askConfirmLoop_tooLong (ask raw : String) (rest : List String)
    (h : tooLong raw = true) : askConfirmLoop ask (raw :: rest) = ⟨false, []⟩ := by
  rw [askConfirmLoop, if_pos ((tooLong_iff raw).1 h)]

theorem askConfirmLoop_answer (ask : String) (lines : List String) :
    (askConfirmLoop ask lines).answer = true
      ↔ ∃ raw, lines.find? (fun raw => tooLong raw || isAnswer (dropCR raw)) = some raw
          ∧ tooLong raw = false ∧ isYes (dropCR raw) = true := by
  induction lines with
  | nil => simp [askConfirmLoop]
  | cons r rest ih =>
    by_cases hl : tooLong r = true
    · rw [askConfirmLoop_tooLong ask r rest hl]
      simp [List.find?_cons, hl]
    · have hl' : tooLong r = false := by simpa using hl
      have hsz : ¬ r.utf8ByteSize ≥ maxScanTokenSize := fun h => hl ((tooLong_iff r).2 h)
      cases hd : (dropCR r).data with
      | nil =>
        simp [askConfirmLoop, hsz, isAnswer, isYes, hd, List.find?_cons, hl']
      | cons c cs =>
        by_cases hy : c = 'y' ∨ c = 'Y'
        · have ha : isAnswer (dropCR r) = true := by
            rcases hy with h | h <;> simp [isAnswer, hd, h]
          have hyes : isYes (dropCR r) = true := by
            rcases hy with h | h <;> simp [isYes, hd, h]
          simp [askConfirmLoop, hsz, hd, hy, List.find?_cons, ha, hyes, hl']
        · have hyes : isYes (dropCR r) = false := by
            simp only [not_or] at hy
            simp [isYes, hd, hy.1, hy.2]
          by_cases hn : c = 'n' ∨ c = 'N'
          · have ha : isAnswer (dropCR r) = true := by
              rcases hn with h | h <;> simp [isAnswer, hd, h]
            simp [askConfirmLoop, hsz, hd, hy, hn, List.find?_cons, ha, hyes, hl']
          · have ha : isAnswer (dropCR r) = false := by
              simp only [not_or] at hy hn
              simp [isAnswer, hd, hy.1, hy.2, hn.1, hn.2]
            simp only [askConfirmLoop, if_neg hsz, hd, if_neg hy, if_neg hn, List.find?_cons,
              ha, hl', Bool.or_false]
            exact ih

theorem askConfirmLoop_printed (ask : String) (lines : List String) :
    (askConfirmLoop ask lines).printed
      = (lines.takeWhile (fun raw => !(tooLong raw || isAnswer (dropCR raw)))).map
          (fun _ => "\n" ++ ask) := by
  induction lines with
  | nil => simp [askConfirmLoop]
  | cons r rest ih =>
    by_cases hl : tooLong r = true
    · rw [askConfirmLoop_tooLong ask r rest hl]
      simp [List.takeWhile_cons, hl]
    · have hl' : tooLong r = false := by simpa using hl
      have hsz : ¬ r.utf8ByteSize ≥ maxScanTokenSize := fun h => hl ((tooLong_iff r).2 h)
      cases hd : (dropCR r).data with
      | nil => simp [askConfirmLoop, hsz, isAnswer, hd, List.takeWhile_cons, hl']
      | cons c cs =>
        by_cases hy : c = 'y' ∨ c = 'Y'
        · have ha : isAnswer (dropCR r) = true := by
            rcases hy with h | h <;> simp [isAnswer, hd, h]
          simp [askConfirmLoop, hsz, hd, hy, List.takeWhile_cons, ha, hl']
        · by_cases hn : c = 'n' ∨ c = 'N'
          · have ha : isAnswer (dropCR r) = true := by
              rcases hn with h | h <;> simp [isAnswer, hd, h]
            simp [askConfirmLoop, hsz, hd, hy, hn, List.takeWhile_cons, ha, hl']
          · have ha : isAnswer (dropCR r) = false := by
              simp only [not_or] at hy hn
              simp [isAnswer, hd, hy.1, hy.2, hn.1, hn.2]
            simp only [askConfirmLoop, if_neg hsz, hd, if_neg hy, if_neg hn,
              List.takeWhile_cons, ha, hl', Bool.or_false, Bool.not_false, if_true,
              List.map_cons, ih]

theorem utf8ByteSize_replicate (n : Nat) :
    (String.mk (List.replicate n 'x')).utf8ByteSize = n := by
  have h1 : Char.utf8Size 'x' = 1 := by decide
  have h : ∀ m, String.utf8ByteSize.go (List.replicate m 'x') = m := by
    intro m
    induction m with
    | zero => rfl
    | succ m ih => rw [List.replicate_succ, utf8ByteSize_go_cons, ih, h1]
  exact h n

/-- C7, as the claim states it, fails: the first line read is a line of 65536 letters `x`,
the second line is `y`. The first line that is empty or begins with `y`, `Y`, `n` or `N`
is the second one and it begins with `y`, yet `askConfirm` returns false: the scanner
cannot hold the first line and stops. -/
theorem askConfirm_long_line_declines :
    (askConfirm "Process book \"T\"? " [String.mk (List.replicate 65536 'x'), "y"]).answer
      = false
    ∧ [String.mk (List.replicate 65536 'x'), "y"].find? isAnswer = some "y"
    ∧ isYes "y" = true := by
  have hlong : tooLong (String.mk (List.replicate 65536 'x')) = true := by
    rw [tooLong, utf8ByteSize_replicate]
    decide
  refine ⟨?_, ?_, by decide⟩
  · simp only [askConfirm, askConfirmLoop_tooLong _ _ _ hlong]
  · have e : List.replicate 65536 'x' = 'x' :: List.replicate 65535 'x' := rfl
    have h1 : isAnswer (String.mk (List.replicate 65536 'x')) = false := by
      rw [e]
      decide
    have h2 : isAnswer "y" = true := by decide
    simp only [List.find?_cons, h1, h2]

/-- C7, amended: the decision of the confirmation prompt, the input being the finite
sequence of raw lines its scanner reads. `askConfirm` returns true if and only if there is
a first line that, after the removal of a trailing carriage return, is empty or begins
with `y`, `Y`, `n` or `N`, or that is 65536 bytes long or more, and that line is shorter
than 65536 bytes and begins with `y` or `Y`. So the line `y` gives true, `N` gives false,
the empty line gives false, a shorter line such as `maybe` is skipped (the answer is the
one of the lines that follow), the end of input gives false, and a line of 65536 bytes or
more gives false, whatever follows it. The prompt is printed once at the start and once
more for every skipped line. -/
theorem askConfirm_decision (ask : String) (lines : List String) :
    ((askConfirm ask lines).answer = true
      ↔ ∃ raw, lines.find? (fun raw => tooLong raw || isAnswer (dropCR raw)) = some raw
          ∧ tooLong raw = false ∧ isYes (dropCR raw) = true)
    ∧ (askConfirm ask ["y"]).answer = true
    ∧ (askConfirm ask ["N"]).answer = false
    ∧ (askConfirm ask [""]).answer = false
    ∧ (askConfirm ask ["y\r"]).answer = true
    ∧ (askConfirm ask ["\r"]).answer = false
    ∧ (askConfirm ask ("maybe" :: lines)).answer = (askConfirm ask lines).answer
    ∧ (askConfirm ask []).answer = false
    ∧ (askConfirm ask ["maybe"]).answer = false
    ∧ (∀ raw : String, tooLong raw = true → (askConfirm ask (raw :: lines)).answer = false)
    ∧ (askConfirm ask lines).printed
        = (ask ++ "(yes/[no]) ")
          :: (lines.takeWhile (fun raw => !(tooLong raw || isAnswer (dropCR raw)))).map
              (fun _ => "\n" ++ (ask ++ "(yes/[no]) ")) := by
  refine ⟨?_, rfl, rfl, rfl, rfl, rfl, ?_, rfl, rfl, ?_, ?_⟩
  · exact askConfirmLoop_answer _ lines
  · have h : tooLong "maybe" = false := by decide
    have hsz : ¬ ("maybe" : String).utf8ByteSize ≥ maxScanTokenSize := by decide
    simp only [askConfirm, askConfirmLoop, if_neg hsz]
    rfl
  · intro raw hraw
    simp only [askConfirm, askConfirmLoop_tooLong _ _ _ hraw]
  · simp only [askConfirm, askConfirmLoop_printed]

/-! ## The run: start-up, the confirmation gate, the output files -/

theorem main_of_setup_none (env : Env) (flags : Flags) (table : List (List String))
    (stdin : List (List String)) (h : setup env flags = none) :
    main env flags table stdin = ⟨1, [], []⟩ := by
  simp only [main, h]

/-- C10, as the claim states it, fails: on a table made of the header record alone, in a
run that passes its start-up checks and whose search pattern compiles, the run ends with
exit status 0. -/
theorem header_only_run_exits_zero :
    (main
        { nArg := 1
          getwd := some "."
          stat := fun _ => StatResult.isDir
          mkdirAllFails := fun _ => false
          openFails := false
          regexpCompile := fun _ => some (fun _ => true)
          pathJoin := fun d f => d ++ "/" ++ f
          createFails := fun _ => false
          quote := fun t => "\"" ++ t ++ "\""
          rangeOrder := fun ms => ms }
        { flagOutput := "out", flagTitle := "go", flagMultiAllow := false,
          flagObsidian := false }
        [["Book Title", "Authors", "Chapter Title", "Date of Highlight", "Book URL",
          "Chapter URL", "Highlight URL", "Highlight", "Personal Note"]]
        []).status = 0 := by
  decide

/-- C10, amended: for every input table that consists of the header record and 0 data rows,
the run produces no output files and prints nothing; it ends with exit status 0 when the
start-up checks pass (search term not empty, input argument given, output folder usable,
input file opened), the header has 9 fields and the search pattern compiles, and with exit
status 1 otherwise. The exit status 1 of the emptiness check belongs to the table without
any record, not even a header; that run produces no output files either. -/
theorem header_only_run (env : Env) (flags : Flags) (header : List String)
    (stdin : List (List String)) (hrange : ∀ ms, (env.rangeOrder ms).Perm ms) :
    (main env flags [header] stdin).files = []
    ∧ (main env flags [header] stdin).stdout = []
    ∧ (main env flags [header] stdin).status
        = (if (setup env flags).isSome ∧ header.length = 9
              ∧ (env.regexpCompile ("(?i)" ++ flags.flagTitle)).isSome
            then 0 else 1)
    ∧ main env flags [] stdin = ⟨1, [], []⟩ := by
  have hnil : env.rangeOrder [] = [] := List.perm_nil.1 (hrange [])
  have hempty : main env flags [] stdin = ⟨1, [], []⟩ := by
    unfold main
    cases setup env flags with
    | none => rfl
    | some dir => simp [readAll]
  have key : main env flags [header] stdin
      = ⟨if (setup env flags).isSome ∧ header.length = 9
            ∧ (env.regexpCompile ("(?i)" ++ flags.flagTitle)).isSome
          then 0 else 1, [], []⟩ := by
    cases hs : setup env flags with
    | none => simp [main, hs]
    | some dir =>
      by_cases h9 : header.length = 9
      · have hr : readAll 9 [header] = some [header] := by
          simp [readAll, h9]
        cases hc : env.regexpCompile ("(?i)" ++ flags.flagTitle) with
        | none =>
          simp [main, hs, hr, hc]
        | some re =>
          simp [main, hs, hr, hc, aggregate, aggregateFrom, hnil, outputLoop, h9]
      · have hr : readAll 9 [header] = none := by
          simp [readAll, h9]
        simp [main, hs, hr, h9]
  rw [key]
  exact ⟨rfl, rfl, rfl, hempty⟩

/-- C10, witness: the header-only table of the export, in a run whose pattern compiles. -/
theorem header_only_run_witness :
    (main
        { nArg := 1
          getwd := some "."
          stat := fun _ => StatResult.isDir
          mkdirAllFails := fun _ => false
          openFails := false
          regexpCompile := fun _ => some (fun _ => true)
          pathJoin := fun d f => d ++ "/" ++ f
          createFails := fun _ => false
          quote := fun t => "\"" ++ t ++ "\""
          rangeOrder := fun ms => ms }
        { flagOutput := "out", flagTitle := "go", flagMultiAllow := true,
          flagObsidian := true }
        [["Book Title", "Authors", "Chapter Title", "Date of Highlight", "Book URL",
          "Chapter URL", "Highlight URL", "Highlight", "Personal Note"]]
        [["y"]]).files = [] :=
  (header_only_run _ _ _ _ (fun ms => List.Perm.refl ms)).1

end Orol2md
